import Mathlib

/-!
Verification development for `pipInstall2.py` (Version 2.0.2) of the
stuartofmt/pipInstall repository.

The Python source is shallowly embedded: strings are Lean `String`s (in this
toolchain a wrapper around `List Char`, matching Python's sequence-of-code-points
view); fallible code returns `Option`/`Except`, with `none`/`.error` standing for
an uncaught exception respectively a fatal `shutDown` exit; the external
subprocess collaborator (`runsubprocess`) is abstracted as explicit parameters
(probe output, install-success oracle).

Character-class notes: Python's `re` module's `\w` is modelled on its ASCII
fragment (letters, digits, underscore); likewise `str.lower()` is modelled on
ASCII A-Z.  All inputs the program's own grammar admits lie in this fragment.
-/

/-! ## Character classes (from `Dependency.regex` and `re.sub(r"[-_.]+", "-", ...)`) -/

/-- The characters `-`, `_`, `.` collapsed by `re.sub(r"[-_.]+", "-", name)`. -/
def sepChar (c : Char) : Bool := c == '-' || c == '_' || c == '.'

/-- ASCII decimal digit, the `\d` of the version grammar. -/
def isDigitC (c : Char) : Bool := 48 ≤ c.toNat && c.toNat ≤ 57

/-- ASCII letter (the ASCII fragment of `\w`). -/
def isAlphaC (c : Char) : Bool :=
  (65 ≤ c.toNat && c.toNat ≤ 90) || (97 ≤ c.toNat && c.toNat ≤ 122)

/-- The `\w` class of `Dependency.regex` (ASCII fragment). -/
def wordChar (c : Char) : Bool := isAlphaC c || isDigitC c || c == '_'

/-- The name character class `[\w\-_\[\]]` of `Dependency.regex`. -/
def nameChar (c : Char) : Bool := wordChar c || c == '-' || c == '[' || c == ']'

/-- ASCII model of Python `str.lower()` (only A-Z occur in the grammar's inputs). -/
def lowCh (c : Char) : Char :=
  if 65 ≤ c.toNat && c.toNat ≤ 90 then Char.ofNat (c.toNat + 32) else c

/-- `re.sub(r"[-_.]+", "-", l)`: every maximal run of `-`/`_`/`.` becomes one `-`.
The run's last character emits the dash; earlier run members emit nothing. -/
def collapseSep : List Char → List Char
  | [] => []
  | c :: rest =>
    if sepChar c then
      match rest with
      | [] => ['-']
      | d :: _ => if sepChar d then collapseSep rest else '-' :: collapseSep rest
    else c :: collapseSep rest

/-- `re.sub(r"[-_.]+", "-", name).lower()`: the canonical-name computation used in
`Dependency.parse` (line 207) and `getModuleVersion` (line 519). -/
def canonName (l : List Char) : List Char := (collapseSep l).map lowCh

/-! ### Lemmas about canonicalization -/

theorem toNat_ofNat_of_lt {n : Nat} (h : n < 55296) : (Char.ofNat n).toNat = n := by
  have hv : n.isValidChar := Or.inl h
  rw [Char.ofNat, dif_pos hv]
  rfl

theorem lowCh_eq_self {c : Char} (h : ¬(65 ≤ c.toNat ∧ c.toNat ≤ 90)) : lowCh c = c := by
  unfold lowCh
  rw [if_neg]
  simpa using h

theorem lowCh_toNat_upper {c : Char} (h1 : 65 ≤ c.toNat) (h2 : c.toNat ≤ 90) :
    (lowCh c).toNat = c.toNat + 32 := by
  unfold lowCh
  rw [if_pos (by simp [h1, h2])]
  exact toNat_ofNat_of_lt (by omega)

theorem lowCh_idem (c : Char) : lowCh (lowCh c) = lowCh c := by
  by_cases h : 65 ≤ c.toNat ∧ c.toNat ≤ 90
  · have ht : (lowCh c).toNat = c.toNat + 32 := lowCh_toNat_upper h.1 h.2
    exact lowCh_eq_self (by omega)
  · rw [lowCh_eq_self h, lowCh_eq_self h]

theorem toNat_eq_of_eq {c d : Char} (h : c = d) : c.toNat = d.toNat := by rw [h]

theorem sepChar_toNat {c : Char} (h : sepChar c = true) :
    c.toNat = 45 ∨ c.toNat = 95 ∨ c.toNat = 46 := by
  simp only [sepChar, Bool.or_eq_true, beq_iff_eq] at h
  rcases h with (h | h) | h <;> simp [toNat_eq_of_eq h]

theorem sepChar_lowCh (c : Char) : sepChar (lowCh c) = sepChar c := by
  by_cases h : 65 ≤ c.toNat ∧ c.toNat ≤ 90
  · have ht : (lowCh c).toNat = c.toNat + 32 := lowCh_toNat_upper h.1 h.2
    have h1 : sepChar c = false := by
      cases hs : sepChar c
      · rfl
      · rcases sepChar_toNat hs with h' | h' | h' <;> omega
    have h2 : sepChar (lowCh c) = false := by
      cases hs : sepChar (lowCh c)
      · rfl
      · rcases sepChar_toNat hs with h' | h' | h' <;> omega
    rw [h1, h2]
  · rw [lowCh_eq_self h]

theorem nameChar_lowCh {c : Char} (h : nameChar c = true) : nameChar (lowCh c) = true := by
  by_cases hu : 65 ≤ c.toNat ∧ c.toNat ≤ 90
  · have ht : (lowCh c).toNat = c.toNat + 32 := lowCh_toNat_upper hu.1 hu.2
    have ha : isAlphaC (lowCh c) = true := by
      simp only [isAlphaC, Bool.or_eq_true, Bool.and_eq_true, decide_eq_true_eq]
      right; omega
    simp [nameChar, wordChar, ha]
  · rw [lowCh_eq_self hu]; exact h

theorem lowCh_dash : lowCh '-' = '-' := by decide

theorem collapseSep_single_sep {c : Char} (hc : sepChar c = true) :
    collapseSep [c] = ['-'] := by
  simp [collapseSep, hc]

theorem collapseSep_cons_cons_sep_sep {c d : Char} {rest : List Char}
    (hc : sepChar c = true) (hd : sepChar d = true) :
    collapseSep (c :: d :: rest) = collapseSep (d :: rest) := by
  simp [collapseSep, hc, hd]

theorem collapseSep_cons_cons_sep_nonsep {c d : Char} {rest : List Char}
    (hc : sepChar c = true) (hd : sepChar d = false) :
    collapseSep (c :: d :: rest) = '-' :: collapseSep (d :: rest) := by
  conv_lhs => rw [collapseSep]
  simp [hc, hd]

theorem collapseSep_cons_nonsep {c : Char} {rest : List Char} (hc : sepChar c = false) :
    collapseSep (c :: rest) = c :: collapseSep rest := by
  cases rest <;> simp [collapseSep, hc]

theorem collapseSep_map_lowCh (l : List Char) :
    collapseSep (l.map lowCh) = (collapseSep l).map lowCh := by
  induction l with
  | nil => rfl
  | cons c rest ih =>
    cases rest with
    | nil =>
      by_cases hc : sepChar c = true
      · have hc' : sepChar (lowCh c) = true := by rw [sepChar_lowCh]; exact hc
        simp only [List.map, collapseSep_single_sep hc, collapseSep_single_sep hc', List.map,
          lowCh_dash]
      · simp only [Bool.not_eq_true] at hc
        have hc' : sepChar (lowCh c) = false := by rw [sepChar_lowCh]; exact hc
        simp only [List.map, collapseSep_cons_nonsep hc, collapseSep_cons_nonsep hc']
        rfl
    | cons d rest' =>
      have hmap : List.map lowCh (c :: d :: rest') = lowCh c :: List.map lowCh (d :: rest') := rfl
      by_cases hc : sepChar c = true
      · have hc' : sepChar (lowCh c) = true := by rw [sepChar_lowCh]; exact hc
        by_cases hd : sepChar d = true
        · have hd' : sepChar (lowCh d) = true := by rw [sepChar_lowCh]; exact hd
          rw [hmap, show List.map lowCh (d :: rest') = lowCh d :: List.map lowCh rest' from rfl,
            collapseSep_cons_cons_sep_sep hc' hd',
            collapseSep_cons_cons_sep_sep hc hd,
            show (lowCh d :: List.map lowCh rest' : List Char)
              = List.map lowCh (d :: rest') from rfl, ih]
        · simp only [Bool.not_eq_true] at hd
          have hd' : sepChar (lowCh d) = false := by rw [sepChar_lowCh]; exact hd
          rw [hmap, show List.map lowCh (d :: rest') = lowCh d :: List.map lowCh rest' from rfl,
            collapseSep_cons_cons_sep_nonsep hc' hd',
            collapseSep_cons_cons_sep_nonsep hc hd,
            show (lowCh d :: List.map lowCh rest' : List Char)
              = List.map lowCh (d :: rest') from rfl, ih]
          simp [lowCh_dash]
      · simp only [Bool.not_eq_true] at hc
        have hc' : sepChar (lowCh c) = false := by rw [sepChar_lowCh]; exact hc
        rw [hmap, collapseSep_cons_nonsep hc', collapseSep_cons_nonsep hc, ih]
        rfl

/-- The shape invariant of `collapseSep` output: every separator character in it
is a `-` that is not followed by another separator. -/
def canonSepForm : List Char → Bool
  | [] => true
  | c :: rest =>
    (if sepChar c then
      c == '-' && (match rest with | [] => true | d :: _ => !(sepChar d))
     else true) && canonSepForm rest

theorem canonSepForm_collapseSep (l : List Char) : canonSepForm (collapseSep l) = true := by
  induction l with
  | nil => rfl
  | cons c rest ih =>
    simp only [collapseSep]
    by_cases hc : sepChar c = true
    · simp only [hc, if_true]
      cases rest with
      | nil => rfl
      | cons d rest' =>
        by_cases hd : sepChar d = true
        · simpa [hd] using ih
        · simp only [Bool.not_eq_true] at hd
          simp only [hd, Bool.false_eq_true, if_false]
          -- goal: canonSepForm ('-' :: collapseSep (d :: rest'))
          cases hrec : collapseSep (d :: rest') with
          | nil => simp [canonSepForm]
          | cons e t =>
            -- the head of collapseSep (d :: rest') is d itself (d is not a separator)
            have hd0 : e = d := by
              cases rest' with
              | nil =>
                simp only [collapseSep, hd, Bool.false_eq_true, if_false] at hrec
                exact (List.cons.injEq _ _ _ _ ▸ hrec).1.symm
              | cons f t' =>
                simp only [collapseSep, hd, Bool.false_eq_true, if_false] at hrec
                exact (List.cons.injEq _ _ _ _ ▸ hrec).1.symm
            subst hd0
            simp only [canonSepForm, Bool.and_eq_true]
            constructor
            · simp [hd]
            · have := ih
              rw [hrec] at this
              simpa [canonSepForm, hd] using this
    · simp only [Bool.not_eq_true] at hc
      simp only [hc, Bool.false_eq_true, if_false, canonSepForm, Bool.true_and]
      exact ih

theorem collapseSep_of_canonSepForm (l : List Char) (h : canonSepForm l = true) :
    collapseSep l = l := by
  induction l with
  | nil => rfl
  | cons c rest ih =>
    simp only [canonSepForm, Bool.and_eq_true] at h
    obtain ⟨h1, h2⟩ := h
    simp only [collapseSep]
    by_cases hc : sepChar c = true
    · simp only [hc, if_true] at h1 ⊢
      simp only [Bool.and_eq_true, beq_iff_eq] at h1
      obtain ⟨hdash, hnext⟩ := h1
      cases rest with
      | nil => simp [hdash]
      | cons d rest' =>
        simp only [Bool.not_eq_true'] at hnext
        simp [hnext, hdash, ih h2]
    · simp only [Bool.not_eq_true] at hc
      simp [hc, ih h2]

theorem collapseSep_idem (l : List Char) : collapseSep (collapseSep l) = collapseSep l :=
  collapseSep_of_canonSepForm _ (canonSepForm_collapseSep l)

theorem canonName_idem (l : List Char) : canonName (canonName l) = canonName l := by
  unfold canonName
  rw [collapseSep_map_lowCh, collapseSep_idem, List.map_map]
  exact List.map_congr_left (fun c _ => lowCh_idem c)

theorem mem_collapseSep (l : List Char) (c : Char) (h : c ∈ collapseSep l) :
    c = '-' ∨ c ∈ l := by
  induction l with
  | nil => simp [collapseSep] at h
  | cons a rest ih =>
    simp only [collapseSep] at h
    by_cases ha : sepChar a = true
    · simp only [ha, if_true] at h
      cases rest with
      | nil => simp at h; left; exact h
      | cons d rest' =>
        by_cases hd : sepChar d = true
        · simp only [hd, if_true] at h
          rcases ih h with h' | h'
          · left; exact h'
          · right; exact List.mem_cons_of_mem _ h'
        · simp only [Bool.not_eq_true] at hd
          simp only [hd, Bool.false_eq_true, if_false, List.mem_cons] at h
          rcases h with h' | h'
          · left; exact h'
          · rcases ih h' with h'' | h''
            · left; exact h''
            · right; exact List.mem_cons_of_mem _ h''
    · simp only [Bool.not_eq_true] at ha
      simp only [ha, Bool.false_eq_true, if_false, List.mem_cons] at h
      rcases h with h' | h'
      · right; simp [h']
      · rcases ih h' with h'' | h''
        · left; exact h''
        · right; exact List.mem_cons_of_mem _ h''

theorem collapseSep_ne_nil (l : List Char) (h : l ≠ []) : collapseSep l ≠ [] := by
  induction l with
  | nil => exact absurd rfl h
  | cons c rest ih =>
    simp only [collapseSep]
    by_cases hc : sepChar c = true
    · simp only [hc, if_true]
      cases rest with
      | nil => simp
      | cons d rest' =>
        by_cases hd : sepChar d = true
        · simpa [hd] using ih (by simp)
        · simp [hd]
    · simp [hc]

theorem nameChar_canonName (l : List Char) (hl : ∀ c ∈ l, nameChar c = true) :
    ∀ c ∈ canonName l, nameChar c = true := by
  intro c hc
  unfold canonName at hc
  rw [List.mem_map] at hc
  obtain ⟨a, ha, rfl⟩ := hc
  rcases mem_collapseSep l a ha with h | h
  · subst h; rfl
  · exact nameChar_lowCh (hl a h)

theorem canonName_ne_nil (l : List Char) (h : l ≠ []) : canonName l ≠ [] := by
  unfold canonName
  simpa using collapseSep_ne_nil l h

/-! ## The release-version grammar of `Dependency.regex`

`(\d+!)?(\d)+(\.\d+)*(-?(a|b|rc)\d+)?(\.post\d+)?(\.dev\d+)?`, matched against the
whole remainder of the line.  Each part is modelled as a maximal-munch consumer;
maximal munch agrees with the regex's backtracking because each part begins with
a character no later part can begin with. -/

/-- Consume `(\.\d+)*`; structural recursion on a fuel bound (the list length
suffices, since every step consumes at least two characters). -/
def dotSegsF : Nat → List Char → List Char
  | fuel + 1, '.' :: c :: r =>
    if isDigitC c then dotSegsF fuel ((c :: r).dropWhile isDigitC) else '.' :: c :: r
  | _, l => l

/-- Consume `(\.\d+)*`. -/
def dotSegs (l : List Char) : List Char := dotSegsF l.length l

/-- Consume the `(a|b|rc)` alternation of the pre-release tag. -/
def preTag : List Char → Option (List Char)
  | 'a' :: r => some r
  | 'b' :: r => some r
  | 'r' :: 'c' :: r => some r
  | _ => none

/-- Consume `(a|b|rc)\d+` after the optional dash. -/
def preCore (l : List Char) : Option (List Char) :=
  match preTag l with
  | some r => if (r.takeWhile isDigitC).isEmpty then none else some (r.dropWhile isDigitC)
  | none => none

/-- Consume the optional pre-release group `(-?(a|b|rc)\d+)?`. -/
def prePart (l : List Char) : List Char :=
  match l with
  | '-' :: t => (preCore t).getD l
  | _ => (preCore l).getD l

/-- Consume the optional post-release group `(\.post\d+)?`. -/
def postPart : List Char → List Char
  | '.' :: 'p' :: 'o' :: 's' :: 't' :: r =>
    if (r.takeWhile isDigitC).isEmpty then '.' :: 'p' :: 'o' :: 's' :: 't' :: r
    else r.dropWhile isDigitC
  | l => l

/-- Consume the optional dev-release group `(\.dev\d+)?`. -/
def devPart : List Char → List Char
  | '.' :: 'd' :: 'e' :: 'v' :: r =>
    if (r.takeWhile isDigitC).isEmpty then '.' :: 'd' :: 'e' :: 'v' :: r
    else r.dropWhile isDigitC
  | l => l

/-- `(\d)+(\.\d+)*(-?(a|b|rc)\d+)?(\.post\d+)?(\.dev\d+)?` against the whole list. -/
def relMatch (l : List Char) : Bool :=
  !(l.takeWhile isDigitC).isEmpty &&
    (devPart (postPart (prePart (dotSegs (l.dropWhile isDigitC))))).isEmpty

/-- The whole version group `(\d+!)?(\d)+...` against the whole list. -/
def versionMatch (l : List Char) : Bool :=
  match l.dropWhile isDigitC with
  | '!' :: r => !(l.takeWhile isDigitC).isEmpty && relMatch r
  | _ => relMatch l

/-- Split a comparator off the front: the `(==|~=|>=|<=|>|<)` alternation.
Python's engine would retry `>` after `>=` fails, but a version group never
begins with `=` (it begins with a digit), so committing to the two-character
comparator is observationally equal. -/
def compSplit : List Char → Option (List Char × List Char)
  | '=' :: '=' :: r => some (['=', '='], r)
  | '~' :: '=' :: r => some (['~', '='], r)
  | '>' :: '=' :: r => some (['>', '='], r)
  | '<' :: '=' :: r => some (['<', '='], r)
  | '>' :: r => some (['>'], r)
  | '<' :: r => some (['<'], r)
  | _ => none

/-- The first (PyPI) alternative of `Dependency.regex`:
`^([\w\-_\[\]]+)((==|~=|>=|<=|>|<)(version))?$`.  The name class is disjoint
from the comparator-start characters, so the greedy name prefix is exact. -/
def pypiMatch (l : List Char) : Option (List Char × List Char × List Char) :=
  let name := l.takeWhile nameChar
  let rest := l.dropWhile nameChar
  if name.isEmpty then none
  else if rest.isEmpty then some (name, [], [])
  else
    match compSplit rest with
    | some (comp, ver) => if versionMatch ver then some (name, comp, ver) else none
    | none => none

/-- The second alternative of `Dependency.regex`: `^git\+.*$` (`.` excludes newline). -/
def gitMatch (l : List Char) : Option (List Char) :=
  if l.take 4 = ['g', 'i', 't', '+'] ∧ '\n' ∉ l then some l else none

/-- Python's unanchored-`$` rule: without `re.MULTILINE`, `$` also matches just
before one trailing newline, so a single trailing newline is ignored. -/
def stripTrailNl (l : List Char) : List Char :=
  if l.getLast? = some '\n' then l.dropLast else l

/-! ## `ExitCodes`, `modType`, `Dependency` (data model of the script) -/

/-- The `ExitCodes` enum of the script. -/
inductive ExitCodes
  | SUCCESS | NO_MANIFEST_PROVIDED | MANIFEST_DOES_NOT_EXIST | NO_PLUGIN_PROVIDED
  | PLUGIN_DOES_NOT_EXIST | UNSUPPORTED_CONDITIONAL | PROBLEM_CREATING_VENV | MANIFEST_ERROR
  | PIP_LIST_ERROR | UNEXPECTED_ERROR | FAILED_TO_INSTALL_MODULE | INVALID_DEPENDENCY
  | PYTHON_SITE_ERROR
deriving DecidableEq, Repr

/-- The numeric process-exit value of each `ExitCodes` member. -/
def ExitCodes.value : ExitCodes → Nat
  | .SUCCESS => 0 | .NO_MANIFEST_PROVIDED => 1 | .MANIFEST_DOES_NOT_EXIST => 2
  | .NO_PLUGIN_PROVIDED => 3 | .PLUGIN_DOES_NOT_EXIST => 4 | .UNSUPPORTED_CONDITIONAL => 5
  | .PROBLEM_CREATING_VENV => 6 | .MANIFEST_ERROR => 7 | .PIP_LIST_ERROR => 8
  | .UNEXPECTED_ERROR => 9 | .FAILED_TO_INSTALL_MODULE => 10 | .INVALID_DEPENDENCY => 11
  | .PYTHON_SITE_ERROR => 12

/-- The `modType` enum of the script. -/
inductive modType
  | BUILTIN | INSTALLEDWITHVERSION | INSTALLEDNOVERSION
  | PIPWITHVERSION | PIPNOVERSION | NOTINSTALLED
deriving DecidableEq, Repr

/-- The `.value` string of each `modType` member. -/
def modType.value : modType → String
  | .BUILTIN => "Builtin"
  | .INSTALLEDWITHVERSION => "already Installed with version"
  | .INSTALLEDNOVERSION => "already Installed no Version"
  | .PIPWITHVERSION => "Pip with Version"
  | .PIPNOVERSION => "Pip no Version"
  | .NOTINSTALLED => "Not Installed"

/-- The `Dependency.DepTypes` enum. -/
inductive DepTypes | PYPI | GIT | NONE
deriving DecidableEq, Repr

/-- The `Dependency` class: fields as set by `Dependency.parse` (`comparator` and
`version` are `Optional[str]` in the source; the PyPI branch stores `''`-strings,
the git branch stores `None`). -/
structure Dependency where
  package : String
  comparator : Option String
  version : Option String
  type : DepTypes
deriving DecidableEq, Repr

/-- The `uri` property: `package + comparator + version` with `None` rendered as `''`. -/
def Dependency.uri (d : Dependency) : String :=
  d.package ++ (d.comparator.getD "") ++ (d.version.getD "")

/-- `Dependency.parse`: `re.findall(Dependency.regex, text)` and the branch on
which alternative matched; the PyPI name is canonicalized with
`re.sub(r"[-_.]+", "-", name).lower()` and `~=` is rewritten to `>=`. -/
def Dependency.parse (text : String) : Option Dependency :=
  let l := stripTrailNl text.data
  match pypiMatch l with
  | some (name, comp, ver) =>
    let comp := if comp = ['~', '='] then ['>', '='] else comp
    some { package := ⟨canonName name⟩, comparator := some ⟨comp⟩, version := some ⟨ver⟩,
           type := DepTypes.PYPI }
  | none =>
    match gitMatch l with
    | some g =>
      some { package := ⟨g⟩, comparator := none, version := none, type := DepTypes.GIT }
    | none => none

/-- `parseVersion` (lines 378-397): comma check first (fatal
`UNSUPPORTED_CONDITIONAL` via `shutDown`), then `Dependency.parse` (fatal
`INVALID_DEPENDENCY` when it returns `None`), then the no-comparator fields are
normalized to `('None', '')`. -/
def parseVersion (request : String) : Except ExitCodes (String × String × String) :=
  if ',' ∈ request.data then Except.error ExitCodes.UNSUPPORTED_CONDITIONAL
  else
    match Dependency.parse request with
    | none => Except.error ExitCodes.INVALID_DEPENDENCY
    | some dep =>
      if dep.comparator = none ∨ dep.comparator = some "" then
        Except.ok (dep.package, "None", "")
      else
        Except.ok (dep.package, dep.comparator.getD "", dep.version.getD "")

/-! ## StateResolver: `getFreezeList` and `getModuleVersion`

`runsubprocess` results are passed in as parameters: `Option String` with `none`
for the `False` (non-`str`) outcome.  The probe script's output and the frozen
listing are arbitrary strings.  A `none` result of the resolver models an
uncaught exception (`IndexError` from `lines[-1]`/`last_line[1]`, or `re.error`
from the interpolated fallback pattern). -/

/-- Python `str.split(sep)` for a one-character separator (always nonempty). -/
def splitCh (sep : Char) : List Char → List (List Char)
  | [] => [[]]
  | c :: r =>
    if c = sep then [] :: splitCh sep r
    else
      match splitCh sep r with
      | h :: t => (c :: h) :: t
      | [] => [[c]]

/-- The lines `re.MULTILINE` anchors run over: pieces between `\n` characters. -/
def linesOf (l : List Char) : List (List Char) := splitCh '\n' l

/-- Python `str.splitlines()` restricted to `\n` terminators (the probe script
and `pip freeze` emit `\n`): like `split('\n')` but `''` gives `[]` and one
trailing newline adds no empty final line. -/
def splitlinesM (l : List Char) : List (List Char) :=
  if l.isEmpty then []
  else if l.getLast? = some '\n' then (splitCh '\n' l).dropLast
  else splitCh '\n' l

/-- Python `str.strip()` (whitespace at both ends). -/
def stripWs (l : List Char) : List Char :=
  ((l.dropWhile Char.isWhitespace).reverse.dropWhile Char.isWhitespace).reverse

/-- Lines 499-503 of `getModuleVersion`: take the last line of the probe output,
split it on commas, and read fields 0 and 1 (stripped).  `none` models the
`IndexError` raised when there is no line or no second field. -/
def importProbeParse (req : String) : Option (String × String) :=
  match (splitlinesM req.data).getLast? with
  | none => none
  | some last =>
    match splitCh ',' last with
    | f0 :: f1 :: _ => some (⟨stripWs f0⟩, ⟨stripWs f1⟩)
    | _ => none

/-- `getFreezeList` (lines 472-484): the captured `pip freeze` text lowercased
with `-` replaced by `_` (the subprocess-failure exit is not modelled here; the
claims quantify over the captured listing). -/
def getFreezeList (raw : String) : String :=
  ⟨(raw.data.map lowCh).map (fun c => if c = '-' then '_' else c)⟩

/-! ### The interpolated fallback pattern `f'^{cm}==(.+)$'`

`cm` is spliced into the pattern verbatim, so `[`...`]` spans become character
classes (with `x-y` ranges) rather than literals.  Characters other than square
brackets are modelled as literals: the remaining regex metacharacters do not
occur in canonicalized registry names. -/

/-- One element of the interpolated pattern: a literal or a character class. -/
inductive CMatcher
  | lit (c : Char)
  | cls (mem : List Char)
deriving DecidableEq, Repr

/-- The characters of a regex class range `a-b` (Python: the ordinal interval). -/
def rangeChars (a b : Char) : List Char :=
  (List.range (b.toNat + 1 - a.toNat)).map (fun i => Char.ofNat (a.toNat + i))

/-- Members of a character class body up to the closing `]`; `none` models
`re.error` (unterminated set or reversed range). -/
def classItems : List Char → Option (List Char × List Char)
  | [] => none
  | ']' :: rest => some ([], rest)
  | a :: '-' :: ']' :: rest => some ([a, '-'], rest)
  | a :: '-' :: b :: rest =>
    if a.toNat ≤ b.toNat then
      match classItems rest with
      | some (mem, r) => some (rangeChars a b ++ mem, r)
      | none => none
    else none
  | a :: rest =>
    match classItems rest with
    | some (mem, r) => some (a :: mem, r)
    | none => none

/-- A class body just after `[`: a leading `]` is a literal member. -/
def parseClassBody : List Char → Option (List Char × List Char)
  | ']' :: rest =>
    match classItems rest with
    | some (mem, r) => some (']' :: mem, r)
    | none => none
  | l => classItems l

/-- Compile the interpolated `cm` into matchers (fuel-structural; `cm.length`
fuel suffices since every step consumes at least one character). -/
def compileCMF : Nat → List Char → Option (List CMatcher)
  | _, [] => some []
  | fuel + 1, '[' :: rest =>
    match parseClassBody rest with
    | some (mem, rest') =>
      match compileCMF fuel rest' with
      | some P => some (CMatcher.cls mem :: P)
      | none => none
    | none => none
  | fuel + 1, c :: rest =>
    match compileCMF fuel rest with
    | some P => some (CMatcher.lit c :: P)
    | none => none
  | 0, _ => none

/-- Compile the whole canonical name into the interpolated pattern's matchers. -/
def compileCM (cm : List Char) : Option (List CMatcher) := compileCMF cm.length cm

/-- Match the compiled `cm` against the front of a line, returning the rest. -/
def cmMatches : List CMatcher → List Char → Option (List Char)
  | [], rest => some rest
  | CMatcher.lit c :: P, x :: r => if x = c then cmMatches P r else none
  | CMatcher.cls mem :: P, x :: r => if x ∈ mem then cmMatches P r else none
  | _ :: _, [] => none

/-- Match `^{cm}==(.+)$` against one line, returning the `(.+)` capture. -/
def lineCapture (P : List CMatcher) (line : List Char) : Option (List Char) :=
  match cmMatches P line with
  | some ('=' :: '=' :: v) => if v.isEmpty then none else some v
  | _ => none

/-- Lines 515-534 of `getModuleVersion`: the registry-listing fallback.
`cm in freezeList` is substring containment; only then is the interpolated
pattern run over the listing with `re.MULTILINE`, and `result[0]` (the first
matching line's capture) is consulted. -/
def pipFallback (m : String) (freezeList : String) : Option (String × String) :=
  let cm := canonName m.data
  if cm <:+: freezeList.data then
    match compileCM cm with
    | none => none
    | some P =>
      match (linesOf freezeList.data).filterMap (lineCapture P) with
      | [] => some ("None", modType.PIPNOVERSION.value)
      | v :: _ =>
        if (⟨v⟩ : String) = "" then some ("None", modType.PIPNOVERSION.value)
        else some (⟨v⟩, modType.PIPWITHVERSION.value)
  else some ("None", modType.NOTINSTALLED.value)

/-- `getModuleVersion` (lines 486-534).  `probe` is the `runsubprocess` result of
the import-test command (`none` for the non-`str` `False`); `freezeList` is the
previously captured normalized listing. -/
def getModuleVersion (m : String) (builtins : List String) (probe : Option String)
    (freezeList : String) : Option (String × String) :=
  if m ∈ builtins then some ("None", modType.BUILTIN.value)
  else
    match probe with
    | some req =>
      match importProbeParse req with
      | none => none
      | some (result, resultType) =>
        if resultType = "INSTALLEDWITHVERSION" then
          some (result, modType.INSTALLEDWITHVERSION.value)
        else if resultType = "INSTALLEDNOVERSION" then
          some ("None", modType.INSTALLEDNOVERSION.value)
        else pipFallback m freezeList
    | none => pipFallback m freezeList

/-- spec §3 `ModuleState.classification` values. -/
inductive Classification
  | Builtin | InstalledWithVersion | InstalledNoVersion | NotInstalled
deriving DecidableEq, Repr

/-- Modelled from the spec: §4.2 presents the resolver's outcome as one of four
classifications; the listing-probe results (`PIPWITHVERSION`/`PIPNOVERSION`)
are its `InstalledWithVersion`/`InstalledNoVersion` ("A match with a non-empty
version yields InstalledWithVersion; ... empty version yields
InstalledNoVersion; no match yields NotInstalled"). -/
def specClassificationOfValue (s : String) : Option Classification :=
  if s = modType.BUILTIN.value then some Classification.Builtin
  else if s = modType.INSTALLEDWITHVERSION.value then some Classification.InstalledWithVersion
  else if s = modType.INSTALLEDNOVERSION.value then some Classification.InstalledNoVersion
  else if s = modType.PIPWITHVERSION.value then some Classification.InstalledWithVersion
  else if s = modType.PIPNOVERSION.value then some Classification.InstalledNoVersion
  else if s = modType.NOTINSTALLED.value then some Classification.NotInstalled
  else none

/-! ## DecisionEngine and ResultAggregator -/

/-- One entry of the `modulerequests` list-of-lists, with the field names of
`unpackRequestList` (lines 597-605). -/
structure ModRequest where
  mod_name : String
  requested_version_comp : String
  requested_version_val : String
  current_version : String
  current_type : String
  install_result : String
  install_version : String
deriving DecidableEq, Repr

/-- One iteration of the `processRequests` loop (lines 570-595).  `installOk`
abstracts `installModule`'s success; the second component records the
`installModule` invocations (the calls into the install collaborator). -/
def processOne (installOk : String → String → String → Bool) (r : ModRequest) :
    ModRequest × List (String × String × String) :=
  if r.current_type = modType.BUILTIN.value then
    ({ r with install_result := "Builtin" }, [])
  else if (r.current_type = modType.INSTALLEDWITHVERSION.value ∨
           r.current_type = modType.INSTALLEDNOVERSION.value) ∧
          r.requested_version_comp = "None" then
    ({ r with install_result := "Skipped" }, [])
  else if installOk r.mod_name r.requested_version_comp r.requested_version_val then
    ({ r with install_result := "Succeeded" },
     [(r.mod_name, r.requested_version_comp, r.requested_version_val)])
  else
    ({ r with install_result := "Failed" },
     [(r.mod_name, r.requested_version_comp, r.requested_version_val)])

/-- `processRequests` (lines 570-595), with the trace of install invocations. -/
def processRequests (installOk : String → String → String → Bool) :
    List ModRequest → List ModRequest × List (String × String × String)
  | [] => ([], [])
  | r :: rest =>
    ((processOne installOk r).1 :: (processRequests installOk rest).1,
     (processOne installOk r).2 ++ (processRequests installOk rest).2)

/-- `getUpdatedVersions` (lines 607-621): `newVersion` abstracts the
post-install `getModuleVersion` version component. -/
def getUpdatedVersions (newVersion : String → String) (reqs : List ModRequest) :
    List ModRequest :=
  reqs.map fun r =>
    if r.install_result = "Succeeded" then { r with install_version := newVersion r.mod_name }
    else { r with install_version := "None" }

/-- `sortResults` (lines 623-643): the four outcome buckets, in processing order. -/
def sortResults :
    List ModRequest → List ModRequest × List ModRequest × List ModRequest × List ModRequest
  | [] => ([], [], [], [])
  | r :: rest =>
    let (b, s, i, f) := sortResults rest
    if r.install_result = "Builtin" then (r :: b, s, i, f)
    else if r.install_result = "Skipped" then (b, r :: s, i, f)
    else if r.install_result = "Succeeded" then (b, s, r :: i, f)
    else (b, s, i, r :: f)

/-- The tail of `main` (lines 773-782): exit `FAILED_TO_INSTALL_MODULE` when the
failed bucket is nonempty, else exit `SUCCESS`. -/
def mainExit (reqs : List ModRequest) : ExitCodes :=
  if 0 < (sortResults reqs).2.2.2.length then ExitCodes.FAILED_TO_INSTALL_MODULE
  else ExitCodes.SUCCESS

/-! ## Helper lemmas for the decision engine and aggregator -/

theorem mem_of_getLastEq {a : Char} {l : List Char} (h : l.getLast? = some a) : a ∈ l := by
  obtain ⟨ys, hy⟩ := List.getLast?_eq_some_iff.mp h
  rw [hy]; simp

theorem processRequests_append (installOk : String → String → String → Bool)
    (xs ys : List ModRequest) :
    processRequests installOk (xs ++ ys) =
      ((processRequests installOk xs).1 ++ (processRequests installOk ys).1,
       (processRequests installOk xs).2 ++ (processRequests installOk ys).2) := by
  induction xs with
  | nil => simp [processRequests]
  | cons r rest ih => simp [processRequests, ih]

theorem sortResults_eq_filters (reqs : List ModRequest) :
    sortResults reqs =
      (reqs.filter (fun r => r.install_result == "Builtin"),
       reqs.filter (fun r => r.install_result == "Skipped"),
       reqs.filter (fun r => r.install_result == "Succeeded"),
       reqs.filter (fun r => !(r.install_result == "Builtin") &&
         !(r.install_result == "Skipped") && !(r.install_result == "Succeeded"))) := by
  induction reqs with
  | nil => rfl
  | cons r rest ih =>
    simp only [sortResults, ih, List.filter]
    by_cases h1 : r.install_result = "Builtin"
    · have hb1 : (r.install_result == "Builtin") = true := beq_iff_eq.mpr h1
      have hb2 : (r.install_result == "Skipped") = false := by rw [h1]; decide
      have hb3 : (r.install_result == "Succeeded") = false := by rw [h1]; decide
      simp [h1, hb1, hb2, hb3]
    · have hb1 : (r.install_result == "Builtin") = false := beq_eq_false_iff_ne.mpr h1
      by_cases h2 : r.install_result = "Skipped"
      · have hb2 : (r.install_result == "Skipped") = true := beq_iff_eq.mpr h2
        have hb3 : (r.install_result == "Succeeded") = false := by rw [h2]; decide
        simp [h1, h2, hb1, hb2, hb3]
      · have hb2 : (r.install_result == "Skipped") = false := beq_eq_false_iff_ne.mpr h2
        by_cases h3 : r.install_result = "Succeeded"
        · have hb3 : (r.install_result == "Succeeded") = true := beq_iff_eq.mpr h3
          simp [h1, h2, h3, hb1, hb2, hb3]
        · have hb3 : (r.install_result == "Succeeded") = false := beq_eq_false_iff_ne.mpr h3
          simp [h1, h2, h3, hb1, hb2, hb3]

theorem sortResults_perm (reqs : List ModRequest) :
    ((sortResults reqs).1 ++ (sortResults reqs).2.1 ++ (sortResults reqs).2.2.1 ++
      (sortResults reqs).2.2.2).Perm reqs := by
  induction reqs with
  | nil => simp [sortResults]
  | cons r rest ih =>
    rcases hs : sortResults rest with ⟨b, s, i, f⟩
    rw [hs] at ih
    simp only at ih
    simp only [sortResults, hs]
    by_cases h1 : r.install_result = "Builtin"
    · simp only [h1, if_true]
      simpa using ih.cons r
    · rw [if_neg h1]
      by_cases h2 : r.install_result = "Skipped"
      · simp only [h2, if_true]
        have hm : (b ++ r :: (s ++ (i ++ f))).Perm (r :: (b ++ (s ++ (i ++ f)))) :=
          List.perm_middle
        have ih' : (b ++ (s ++ (i ++ f))).Perm rest := by
          simpa [List.append_assoc] using ih
        have : (b ++ r :: (s ++ (i ++ f))).Perm (r :: rest) := hm.trans (ih'.cons r)
        simpa [List.append_assoc] using this
      · rw [if_neg h2]
        by_cases h3 : r.install_result = "Succeeded"
        · simp only [h3, if_true]
          have hm : ((b ++ s) ++ r :: (i ++ f)).Perm (r :: ((b ++ s) ++ (i ++ f))) :=
            List.perm_middle
          have ih' : ((b ++ s) ++ (i ++ f)).Perm rest := by
            simpa [List.append_assoc] using ih
          have : ((b ++ s) ++ r :: (i ++ f)).Perm (r :: rest) := hm.trans (ih'.cons r)
          simpa [List.append_assoc] using this
        · rw [if_neg h3]
          have hm : ((b ++ s ++ i) ++ r :: f).Perm (r :: ((b ++ s ++ i) ++ f)) :=
            List.perm_middle
          have ih' : ((b ++ s ++ i) ++ f).Perm rest := by
            simpa [List.append_assoc] using ih
          have : ((b ++ s ++ i) ++ r :: f).Perm (r :: rest) := hm.trans (ih'.cons r)
          simpa [List.append_assoc] using this

/-! ## Claims C2, C3, C4, C6, C7 -/

/-- Claim C3: a request whose resolved pre-state is `Builtin` gets outcome
`Builtin`, contributes no install-collaborator invocation to the trace, and
leaves the processing of every other manifest entry unchanged, for any
comparator/version combination. -/
theorem claim_C3 (installOk : String → String → String → Bool)
    (pre post : List ModRequest) (r : ModRequest)
    (h : r.current_type = modType.BUILTIN.value) :
    processRequests installOk (pre ++ r :: post) =
      ((processRequests installOk pre).1 ++
        ({ r with install_result := "Builtin" } :: (processRequests installOk post).1),
       (processRequests installOk pre).2 ++ (processRequests installOk post).2) := by
  have h1 : processOne installOk r = ({ r with install_result := "Builtin" }, []) := by
    simp [processOne, h]
  rw [processRequests_append]
  simp [processRequests, h1]

/-- Claim C3 witness at a concrete builtin request. -/
theorem claim_C3_witness :
    processRequests (fun _ _ _ => true)
        ([] ++ (⟨"os", "==", "1.0", "None", "Builtin", "", ""⟩ : ModRequest) :: []) =
      ((processRequests (fun _ _ _ => true) []).1 ++
        ({ (⟨"os", "==", "1.0", "None", "Builtin", "", ""⟩ : ModRequest) with
            install_result := "Builtin" } :: (processRequests (fun _ _ _ => true) []).1),
       (processRequests (fun _ _ _ => true) []).2 ++
         (processRequests (fun _ _ _ => true) []).2) :=
  claim_C3 (fun _ _ _ => true) [] [] _ (by decide)

/-- Claim C4: any request string containing a comma makes `parseVersion` fail
with the fatal `UNSUPPORTED_CONDITIONAL` exit, before and regardless of grammar
matching. -/
theorem claim_C4 (request : String) (h : ',' ∈ request.data) :
    parseVersion request = Except.error ExitCodes.UNSUPPORTED_CONDITIONAL := by
  unfold parseVersion
  rw [if_pos h]

/-- Claim C4 witness: `"git+a,b"` contains a comma, is accepted by the grammar
(so the rejection is pre-emptive, not a grammar failure), yet `parseVersion`
fails with `UNSUPPORTED_CONDITIONAL`. -/
theorem claim_C4_witness :
    (',' ∈ ("git+a,b" : String).data) ∧
    (Dependency.parse "git+a,b").isSome = true ∧
    parseVersion "git+a,b" = Except.error ExitCodes.UNSUPPORTED_CONDITIONAL :=
  ⟨by decide, by decide, claim_C4 "git+a,b" (by decide)⟩

/-- Claim C6: (1) a failed install attempt marks exactly that one request
`Failed` — the surrounding entries are processed exactly as they would be on
their own, so the run continues — while the failing install invocation does
reach the collaborator trace; (2) the final exit signal is `SUCCESS` iff the
failed bucket is empty. -/
theorem claim_C6 :
    (∀ (installOk : String → String → String → Bool) (pre post : List ModRequest)
        (r : ModRequest),
      r.current_type ≠ modType.BUILTIN.value →
      ¬ ((r.current_type = modType.INSTALLEDWITHVERSION.value ∨
          r.current_type = modType.INSTALLEDNOVERSION.value) ∧
         r.requested_version_comp = "None") →
      installOk r.mod_name r.requested_version_comp r.requested_version_val = false →
      processRequests installOk (pre ++ r :: post) =
        ((processRequests installOk pre).1 ++
          ({ r with install_result := "Failed" } :: (processRequests installOk post).1),
         (processRequests installOk pre).2 ++
          ((r.mod_name, r.requested_version_comp, r.requested_version_val) ::
            (processRequests installOk post).2))) ∧
    (∀ reqs : List ModRequest,
      mainExit reqs = ExitCodes.SUCCESS ↔ (sortResults reqs).2.2.2 = []) := by
  constructor
  · intro installOk pre post r h1 h2 h3
    have hone : processOne installOk r =
        ({ r with install_result := "Failed" },
         [(r.mod_name, r.requested_version_comp, r.requested_version_val)]) := by
      simp [processOne, h1, h2, h3]
    rw [processRequests_append]
    simp [processRequests, hone]
  · intro reqs
    unfold mainExit
    by_cases h : 0 < (sortResults reqs).2.2.2.length
    · rw [if_pos h]
      constructor
      · intro he; exact absurd he (by decide)
      · intro he; rw [he] at h; simp at h
    · rw [if_neg h]
      simp only [Nat.not_lt, Nat.le_zero, List.length_eq_zero] at h
      simp [h]

/-- Claim C6 witness: a single failing request yields the `Failed` outcome with
its install attempt in the trace, and a list with a nonempty failed bucket does
not exit `SUCCESS` while the empty list does. -/
theorem claim_C6_witness :
    (processRequests (fun _ _ _ => false)
        ([] ++ (⟨"flask", ">=", "2.0", "None", "Not Installed", "", ""⟩ : ModRequest) :: []) =
      ((processRequests (fun _ _ _ => false) []).1 ++
        ({ (⟨"flask", ">=", "2.0", "None", "Not Installed", "", ""⟩ : ModRequest) with
            install_result := "Failed" } :: (processRequests (fun _ _ _ => false) []).1),
       (processRequests (fun _ _ _ => false) []).2 ++
         (("flask", ">=", "2.0") :: (processRequests (fun _ _ _ => false) []).2))) ∧
    (mainExit [] = ExitCodes.SUCCESS ↔ (sortResults ([] : List ModRequest)).2.2.2 = []) :=
  ⟨claim_C6.1 (fun _ _ _ => false) [] [] _ (by decide) (by decide) rfl,
   claim_C6.2 []⟩

/-- Claim C7: `sortResults` is exactly the four order-preserving filters on the
outcome field (the fourth bucket catches everything that is not
Builtin/Skipped/Succeeded), and the four buckets together are a permutation of
the input list — every request lands in exactly one bucket, none lost, none
duplicated. -/
theorem claim_C7 (reqs : List ModRequest) :
    sortResults reqs =
      (reqs.filter (fun r => r.install_result == "Builtin"),
       reqs.filter (fun r => r.install_result == "Skipped"),
       reqs.filter (fun r => r.install_result == "Succeeded"),
       reqs.filter (fun r => !(r.install_result == "Builtin") &&
         !(r.install_result == "Skipped") && !(r.install_result == "Succeeded"))) ∧
    ((sortResults reqs).1 ++ (sortResults reqs).2.1 ++ (sortResults reqs).2.2.1 ++
      (sortResults reqs).2.2.2).Perm reqs :=
  ⟨sortResults_eq_filters reqs, sortResults_perm reqs⟩

/-- Claim C2 counterexample: a module that the import probe reports as not
importable but that appears in the frozen listing as `somepkg==1.0` resolves to
`PIPWITHVERSION` — the spec's `InstalledWithVersion` classification — yet with
no comparator requested the engine installs it (outcome `Succeeded`, an install
invocation in the trace) instead of skipping it. -/
theorem claim_C2_counterexample :
    getModuleVersion "somepkg" [] (some "Module not able to be imported, NOTINSTALLED")
        "somepkg==1.0\n" = some ("1.0", modType.PIPWITHVERSION.value) ∧
    specClassificationOfValue modType.PIPWITHVERSION.value =
      some Classification.InstalledWithVersion ∧
    processRequests (fun _ _ _ => true)
        [⟨"somepkg", "None", "", "1.0", modType.PIPWITHVERSION.value, "", ""⟩] =
      ([⟨"somepkg", "None", "", "1.0", modType.PIPWITHVERSION.value, "Succeeded", ""⟩],
       [("somepkg", "None", "")]) ∧
    ("Succeeded" : String) ≠ "Skipped" :=
  ⟨by decide, by decide, by decide, by decide⟩

/-- Claim C2 amended: only the import-probe-established installed states (the
`modType` members `INSTALLEDWITHVERSION`/`INSTALLEDNOVERSION`) are skipped when
no comparator is requested; such a request contributes no install invocation
and leaves all other entries unchanged.  (States established only by the
frozen-listing fallback — `PIPWITHVERSION`/`PIPNOVERSION`, which the spec also
calls installed — are reinstalled instead; see the counterexample.) -/
theorem claim_C2_amended (installOk : String → String → String → Bool)
    (pre post : List ModRequest) (r : ModRequest)
    (h1 : r.current_type = modType.INSTALLEDWITHVERSION.value ∨
          r.current_type = modType.INSTALLEDNOVERSION.value)
    (h2 : r.requested_version_comp = "None") :
    processRequests installOk (pre ++ r :: post) =
      ((processRequests installOk pre).1 ++
        ({ r with install_result := "Skipped" } :: (processRequests installOk post).1),
       (processRequests installOk pre).2 ++ (processRequests installOk post).2) := by
  have h0 : ¬ (r.current_type = modType.BUILTIN.value) := by
    rcases h1 with h | h <;> simp [h, modType.value]
  have hone : processOne installOk r = ({ r with install_result := "Skipped" }, []) := by
    simp only [processOne, if_neg h0]
    rw [if_pos ⟨h1, h2⟩]
  rw [processRequests_append]
  simp [processRequests, hone]

/-- Claim C2 witness at a concrete import-probe-installed request. -/
theorem claim_C2_witness :
    processRequests (fun _ _ _ => true)
        ([] ++ (⟨"requests", "None", "", "2.31.0",
                  "already Installed with version", "", ""⟩ : ModRequest) :: []) =
      ((processRequests (fun _ _ _ => true) []).1 ++
        ({ (⟨"requests", "None", "", "2.31.0",
             "already Installed with version", "", ""⟩ : ModRequest) with
            install_result := "Skipped" } :: (processRequests (fun _ _ _ => true) []).1),
       (processRequests (fun _ _ _ => true) []).2 ++
         (processRequests (fun _ _ _ => true) []).2) :=
  claim_C2_amended (fun _ _ _ => true) [] [] _ (Or.inl (by decide)) (by decide)

/-! ## Claims C9, C10, and the C1/C5 counterexamples -/

theorem splitCh_ne_nil (sep : Char) (l : List Char) : splitCh sep l ≠ [] := by
  cases l with
  | nil => simp [splitCh]
  | cons c r =>
    by_cases h : c = sep
    · simp [splitCh, h]
    · simp only [splitCh, h, if_false]
      cases hs : splitCh sep r with
      | nil => simp
      | cons x t => simp

theorem splitCh_two_iff (sep : Char) (l : List Char) :
    (∃ f0 f1 t, splitCh sep l = f0 :: f1 :: t) ↔ sep ∈ l := by
  induction l with
  | nil =>
    constructor
    · rintro ⟨f0, f1, t, h⟩; simp [splitCh] at h
    · intro h; simp at h
  | cons c r ih =>
    by_cases h : c = sep
    · subst h
      constructor
      · intro _; exact List.mem_cons_self c r
      · intro _
        simp only [splitCh, if_pos rfl]
        cases hs : splitCh c r with
        | nil => exact absurd hs (splitCh_ne_nil c r)
        | cons x t => exact ⟨[], x, t, rfl⟩
    · have hmem : sep ∈ c :: r ↔ sep ∈ r := by
        constructor
        · intro hx
          rcases List.mem_cons.mp hx with he | hx'
          · exact absurd he.symm h
          · exact hx'
        · exact fun hx => List.mem_cons_of_mem _ hx
      rw [hmem, ← ih]
      cases hs : splitCh sep r with
      | nil => exact absurd hs (splitCh_ne_nil sep r)
      | cons x t =>
        simp only [splitCh, h, if_false, hs]
        constructor
        · rintro ⟨f0, f1, tt, he⟩
          cases t with
          | nil => simp at he
          | cons y tt' => exact ⟨x, y, tt', rfl⟩
        · rintro ⟨f0, f1, tt, he⟩
          injection he with h1 h2
          exact ⟨c :: x, f1, tt, by rw [h2]⟩

/-- Claim C9 counterexample: a probe output whose (only) line has no comma makes
the resolver raise (`last_line[1]` is an `IndexError`): splitting `"hello"` on
commas yields a single field, and `getModuleVersion` produces no result. -/
theorem claim_C9_counterexample :
    (splitCh ',' ("hello" : String).data).length = 1 ∧
    importProbeParse "hello" = none ∧
    getModuleVersion "mod" [] (some "hello") "freeze" = none :=
  ⟨by decide, by decide, by decide⟩

/-- Claim C9 amended: the probe-output parsing step indexes safely exactly when
the output has a last line containing a comma; when it does, the resolver's
import-probe step produces its (version, classification) pair, and when the
parse raises, the whole resolver call raises. -/
theorem claim_C9_amended :
    (∀ req : String, (importProbeParse req).isSome = true ↔
      ∃ last, (splitlinesM req.data).getLast? = some last ∧ ',' ∈ last) ∧
    (∀ (m : String) (bl : List String) (req fl : String),
      m ∉ bl → importProbeParse req = none →
      getModuleVersion m bl (some req) fl = none) := by
  constructor
  · intro req
    unfold importProbeParse
    cases hlast : (splitlinesM req.data).getLast? with
    | none => simp
    | some last =>
      simp only [Option.some.injEq]
      by_cases hmem : ',' ∈ last
      · obtain ⟨f0, f1, t, hsp⟩ := (splitCh_two_iff ',' last).mpr hmem
        rw [hsp]
        simp only [Option.isSome_some, true_iff]
        exact ⟨last, rfl, hmem⟩
      · cases hs : splitCh ',' last with
        | nil => exact absurd hs (splitCh_ne_nil ',' last)
        | cons x t =>
          cases t with
          | nil =>
            simp only [Option.isSome_none, Bool.false_eq_true, false_iff]
            rintro ⟨last', hl', hm'⟩
            exact hmem (hl' ▸ hm')
          | cons y tt =>
            exact absurd ((splitCh_two_iff ',' last).mp ⟨x, y, tt, hs⟩) hmem
  · intro m bl req fl hm hp
    unfold getModuleVersion
    rw [if_neg hm]
    show (match importProbeParse req with
      | none => none
      | some (result, resultType) =>
        if resultType = "INSTALLEDWITHVERSION" then
          some (result, modType.INSTALLEDWITHVERSION.value)
        else if resultType = "INSTALLEDNOVERSION" then
          some ("None", modType.INSTALLEDNOVERSION.value)
        else pipFallback m fl) = none
    rw [hp]

/-- Claim C9 witness: a two-field last line parses; a comma-free probe output
propagates the raise through `getModuleVersion`. -/
theorem claim_C9_witness :
    (importProbeParse "x, y").isSome = true ∧
    getModuleVersion "m" [] (some "zzz") "" = none :=
  ⟨(claim_C9_amended.1 "x, y").mpr ⟨("x, y" : String).data, by decide, by decide⟩,
   claim_C9_amended.2 "m" [] "zzz" "" (by decide) (by decide)⟩

/-- Claim C10: the fallback's installed/not-installed decision is substring
containment of the canonical name in the whole listing, not a whole-line match:
`NotInstalled` is returned exactly when the canonical name is not a substring;
concretely, `request` is classified `Pip no Version` (installed, no version)
against a listing containing only `requests==2.31.0`, although no listing line
is of the form `request==<version>`. -/
theorem claim_C10 :
    (∀ (m fl v t : String), pipFallback m fl = some (v, t) →
      (t = modType.NOTINSTALLED.value ↔ ¬ (canonName m.data <:+: fl.data))) ∧
    pipFallback "request" "requests==2.31.0\n" = some ("None", modType.PIPNOVERSION.value) ∧
    (canonName ("request" : String).data <:+: ("requests==2.31.0\n" : String).data) ∧
    (∀ line ∈ linesOf ("requests==2.31.0\n" : String).data,
      ¬ (canonName ("request" : String).data ++ ['=', '='] <+: line)) ∧
    modType.PIPNOVERSION.value ≠ modType.NOTINSTALLED.value := by
  refine ⟨?_, by decide, by decide, by decide, by decide⟩
  intro m fl v t h
  unfold pipFallback at h
  by_cases hin : canonName m.data <:+: fl.data
  · rw [if_pos hin] at h
    have ht : t = modType.PIPNOVERSION.value ∨ t = modType.PIPWITHVERSION.value := by
      rcases hc : compileCM (canonName m.data) with _ | P
      · rw [hc] at h; exact absurd h (by simp)
      · rw [hc] at h
        replace h : (match (linesOf fl.data).filterMap (lineCapture P) with
          | [] => some ("None", modType.PIPNOVERSION.value)
          | v0 :: _ =>
            if (⟨v0⟩ : String) = "" then some ("None", modType.PIPNOVERSION.value)
            else some (⟨v0⟩, modType.PIPWITHVERSION.value)) = some (v, t) := h
        rcases hf : (linesOf fl.data).filterMap (lineCapture P) with _ | ⟨v0, rest⟩
        · rw [hf] at h
          simp only [Option.some.injEq, Prod.mk.injEq] at h
          exact Or.inl h.2.symm
        · rw [hf] at h
          replace h : (if (⟨v0⟩ : String) = "" then some ("None", modType.PIPNOVERSION.value)
            else some ((⟨v0⟩ : String), modType.PIPWITHVERSION.value)) = some (v, t) := h
          by_cases hv : (⟨v0⟩ : String) = ""
          · rw [if_pos hv] at h
            simp only [Option.some.injEq, Prod.mk.injEq] at h
            exact Or.inl h.2.symm
          · rw [if_neg hv] at h
            simp only [Option.some.injEq, Prod.mk.injEq] at h
            exact Or.inr h.2.symm
    constructor
    · intro he
      rcases ht with h' | h' <;> rw [h'] at he <;> exact absurd he (by decide)
    · intro hc; exact absurd hin hc
  · rw [if_neg hin] at h
    simp only [Option.some.injEq, Prod.mk.injEq] at h
    rw [← h.2]
    simp [hin]

/-- Claim C10 witness for its universally quantified part, at a module whose
canonical name is absent from the listing. -/
theorem claim_C10_witness :
    (modType.NOTINSTALLED.value = modType.NOTINSTALLED.value ↔
      ¬ (canonName ("zzz" : String).data <:+: ("requests==2.31.0\n" : String).data)) :=
  claim_C10.1 "zzz" "requests==2.31.0\n" "None" modType.NOTINSTALLED.value (by decide)

/-- Claim C1 counterexample, two parts.  (1) `request` has no
`request==<version>` line in the listing `requests==2.31.0`, yet the resolver
(import probe inconclusive) returns `Pip no Version` — an installed
classification — instead of `NotInstalled`, because the substring gate matched
inside `requests`.  (2) A bracketed canonical name `pkg[ab]` sitting verbatim on
a listing line `pkg[ab]==1.0` of the required form is still not given the
version: the interpolated pattern reads `[ab]` as a character class, so the
fallback answers `Pip no Version` rather than the version `1.0`. -/
theorem claim_C1_counterexample :
    (getModuleVersion "request" [] (some "Module not able to be imported, NOTINSTALLED")
        "requests==2.31.0\n" = some ("None", modType.PIPNOVERSION.value) ∧
     (∀ line ∈ linesOf ("requests==2.31.0\n" : String).data,
       ¬ (canonName ("request" : String).data ++ ['=', '='] <+: line)) ∧
     modType.PIPNOVERSION.value ≠ modType.NOTINSTALLED.value ∧
     specClassificationOfValue modType.PIPNOVERSION.value ≠
       some Classification.NotInstalled) ∧
    (("pkg[ab]==1.0" : String).data =
        canonName ("pkg[ab]" : String).data ++ ['=', '='] ++ ("1.0" : String).data ∧
     pipFallback "pkg[ab]" "pkg[ab]==1.0\n" = some ("None", modType.PIPNOVERSION.value)) :=
  ⟨⟨by decide, by decide, by decide, by decide⟩, ⟨by decide, by decide⟩⟩

/-! ## Claim C5: extras brackets under canonicalization -/

theorem collapseSep_append_nonsep (xs : List Char) (c : Char) (ys : List Char)
    (hc : sepChar c = false) :
    collapseSep (xs ++ c :: ys) = collapseSep xs ++ c :: collapseSep ys := by
  induction xs with
  | nil =>
    rw [List.nil_append, collapseSep_cons_nonsep hc]
    rfl
  | cons a xs' ih =>
    rw [List.cons_append]
    by_cases ha : sepChar a = true
    · cases xs' with
      | nil =>
        rw [List.nil_append, collapseSep_cons_cons_sep_nonsep ha hc,
          collapseSep_single_sep ha, collapseSep_cons_nonsep hc]
        rfl
      | cons a' xs'' =>
        by_cases ha' : sepChar a' = true
        · rw [List.cons_append] at ih ⊢
          rw [@collapseSep_cons_cons_sep_sep a a' (xs'' ++ c :: ys) ha ha',
            @collapseSep_cons_cons_sep_sep a a' xs'' ha ha']
          exact ih
        · simp only [Bool.not_eq_true] at ha'
          rw [List.cons_append] at ih ⊢
          rw [@collapseSep_cons_cons_sep_nonsep a a' (xs'' ++ c :: ys) ha ha',
            @collapseSep_cons_cons_sep_nonsep a a' xs'' ha ha', ih]
          rfl
    · simp only [Bool.not_eq_true] at ha
      rw [@collapseSep_cons_nonsep a (xs' ++ c :: ys) ha,
        @collapseSep_cons_nonsep a xs' ha, ih]
      rfl

/-- Claim C5 counterexample: the extras text is not preserved verbatim —
`pkg[My_Extra]` parses to package `pkg[my-extra]` (lowercased, separator
collapsed inside the brackets), which differs from the canonical base name with
the verbatim extras suffix `pkg[My_Extra]`. -/
theorem claim_C5_counterexample :
    Dependency.parse "pkg[My_Extra]" =
      some ⟨"pkg[my-extra]", some "", some "", DepTypes.PYPI⟩ ∧
    ("pkg[my-extra]" : String) ≠ "pkg" ++ "[My_Extra]" :=
  ⟨by decide, by decide⟩

/-- Claim C5 amended: for a Registry specification with a bracketed extras
suffix, the stored package token is the canonicalization of the entire matched
token; the brackets themselves survive as delimiters, but canonicalization
(separator collapsing and lowercasing) applies to the base name and to the
bracketed text alike. -/
theorem claim_C5_amended (base ext : List Char)
    (hb : base ≠ []) (hbc : ∀ c ∈ base, nameChar c = true)
    (hec : ∀ c ∈ ext, nameChar c = true) :
    Dependency.parse ⟨base ++ '[' :: (ext ++ [']'])⟩ =
      some ⟨⟨canonName (base ++ '[' :: (ext ++ [']']))⟩, some "", some "",
        DepTypes.PYPI⟩ ∧
    canonName (base ++ '[' :: (ext ++ [']'])) =
      canonName base ++ '[' :: (canonName ext ++ [']']) := by
  have hall : ∀ c ∈ base ++ '[' :: (ext ++ [']']), nameChar c = true := by
    intro c hcmem
    rcases List.mem_append.mp hcmem with h | h
    · exact hbc c h
    · rcases List.mem_cons.mp h with rfl | h'
      · decide
      · rcases List.mem_append.mp h' with h'' | h''
        · exact hec c h''
        · rcases List.mem_cons.mp h'' with rfl | h3
          · decide
          · simp at h3
  constructor
  · have hL : base ++ '[' :: (ext ++ [']']) = (base ++ '[' :: ext) ++ [']'] := by
      simp [List.append_assoc]
    have hstrip : stripTrailNl (base ++ '[' :: (ext ++ [']'])) =
        base ++ '[' :: (ext ++ [']']) := by
      unfold stripTrailNl
      rw [hL, List.getLast?_concat]
      simp
    have h1 : (base ++ '[' :: (ext ++ [']'])).takeWhile nameChar =
        base ++ '[' :: (ext ++ [']']) := List.takeWhile_eq_self_iff.mpr hall
    have h2 : (base ++ '[' :: (ext ++ [']'])).dropWhile nameChar = [] :=
      List.dropWhile_eq_nil_iff.mpr hall
    have hne : (base ++ '[' :: (ext ++ [']'])).isEmpty = false := by
      cases base with
      | nil => exact absurd rfl hb
      | cons b bt => rfl
    have hpm : pypiMatch (base ++ '[' :: (ext ++ [']'])) =
        some (base ++ '[' :: (ext ++ [']']), [], []) := by
      simp only [pypiMatch, h1, h2, hne, Bool.false_eq_true, if_false, List.isEmpty_nil,
        if_true]
    have hdata : ((⟨base ++ '[' :: (ext ++ [']'])⟩ : String)).data =
        base ++ '[' :: (ext ++ [']']) := rfl
    simp only [Dependency.parse, hdata, hstrip, hpm]
    rfl
  · unfold canonName
    rw [collapseSep_append_nonsep base '[' (ext ++ [']']) (by decide),
      show (ext ++ [']'] : List Char) = ext ++ ']' :: [] from rfl,
      collapseSep_append_nonsep ext ']' [] (by decide)]
    simp only [List.map_append, List.map_cons, List.map_nil]
    rw [show lowCh '[' = '[' from by decide, show lowCh ']' = ']' from by decide]
    rfl

/-- Claim C5 witness at the concrete token `pkg[My_Extra]`. -/
theorem claim_C5_witness :
    Dependency.parse ⟨("pkg" : String).data ++ '[' :: (("My_Extra" : String).data ++ [']'])⟩ =
      some ⟨⟨canonName (("pkg" : String).data ++ '[' :: (("My_Extra" : String).data ++ [']']))⟩,
        some "", some "", DepTypes.PYPI⟩ ∧
    canonName (("pkg" : String).data ++ '[' :: (("My_Extra" : String).data ++ [']'])) =
      canonName ("pkg" : String).data ++ '[' :: (canonName ("My_Extra" : String).data ++ [']']) :=
  claim_C5_amended ("pkg" : String).data ("My_Extra" : String).data
    (by decide) (by decide) (by decide)

/-! ## Claim C1: the registry-listing fallback -/

theorem splitCh_pieces (sep : Char) (l : List Char) :
    ∃ h0 t0, splitCh sep l = h0 :: t0 ∧ h0 <+: l ∧ ∀ x ∈ t0, x <:+: l := by
  induction l with
  | nil => exact ⟨[], [], rfl, List.nil_prefix, by simp⟩
  | cons c r ih =>
    obtain ⟨h0, t0, hs, hpre, htail⟩ := ih
    by_cases hc : c = sep
    · refine ⟨[], splitCh sep r, by simp [splitCh, hc], List.nil_prefix, ?_⟩
      intro x hx
      have hxr : x <:+: r := by
        rw [hs] at hx
        rcases List.mem_cons.mp hx with rfl | hx'
        · exact hpre.isInfix
        · exact htail x hx'
      exact hxr.trans (List.suffix_cons c r).isInfix
    · refine ⟨c :: h0, t0, by simp [splitCh, hc, hs], ?_, ?_⟩
      · obtain ⟨t, ht⟩ := hpre
        exact ⟨t, by rw [List.cons_append, ht]⟩
      · intro x hx
        exact (htail x hx).trans (List.suffix_cons c r).isInfix

theorem mem_splitCh_within {sep : Char} {l x : List Char} (h : x ∈ splitCh sep l) :
    x <:+: l := by
  obtain ⟨h0, t0, hs, hpre, htail⟩ := splitCh_pieces sep l
  rw [hs] at h
  rcases List.mem_cons.mp h with rfl | h'
  · exact hpre.isInfix
  · exact htail x h'

theorem compileCMF_lits (cm : List Char) : ∀ fuel : Nat, cm.length ≤ fuel →
    '[' ∉ cm → compileCMF fuel cm = some (cm.map CMatcher.lit) := by
  induction cm with
  | nil => intro fuel _ _; cases fuel <;> rfl
  | cons c rest ih =>
    intro fuel hf hb
    cases fuel with
    | zero => simp at hf
    | succ fuel' =>
      have hc : ¬(c = '[') := fun he => hb (by rw [he]; exact List.mem_cons_self _ _)
      have ih' : compileCMF fuel' rest = some (rest.map CMatcher.lit) :=
        ih fuel' (by simpa using Nat.le_of_succ_le_succ hf)
          (fun hmem => hb (List.mem_cons_of_mem _ hmem))
      simp only [compileCMF, hc, ih']
      rfl

theorem compileCM_lits (cm : List Char) (hb : '[' ∉ cm) :
    compileCM cm = some (cm.map CMatcher.lit) :=
  compileCMF_lits cm cm.length (Nat.le_refl _) hb

theorem cmMatches_lits_append (cm rest : List Char) :
    cmMatches (cm.map CMatcher.lit) (cm ++ rest) = some rest := by
  induction cm with
  | nil => rfl
  | cons c t ih => simp [cmMatches, ih]

theorem cmMatches_lits_eq (cm : List Char) : ∀ x r : List Char,
    cmMatches (cm.map CMatcher.lit) x = some r → x = cm ++ r := by
  induction cm with
  | nil =>
    intro x r h
    simp only [List.map_nil, cmMatches, Option.some.injEq] at h
    rw [h, List.nil_append]
  | cons c t ih =>
    intro x r h
    cases x with
    | nil => simp [cmMatches] at h
    | cons y ys =>
      simp only [List.map_cons, cmMatches] at h
      by_cases hy : y = c
      · rw [if_pos hy] at h
        rw [hy, ih ys r h, List.cons_append]
      · rw [if_neg hy] at h
        exact absurd h (by simp)

theorem lineCapture_lits {cm v : List Char} (hv : v ≠ []) :
    lineCapture (cm.map CMatcher.lit) (cm ++ '=' :: '=' :: v) = some v := by
  have hve : v.isEmpty = false := by
    cases v with
    | nil => exact absurd rfl hv
    | cons a t => rfl
  unfold lineCapture
  rw [cmMatches_lits_append]
  show (if v.isEmpty = true then none else some v) = some v
  rw [hve]
  simp

theorem lineCapture_some {P : List CMatcher} {line v : List Char}
    (h : lineCapture P line = some v) :
    cmMatches P line = some ('=' :: '=' :: v) ∧ v ≠ [] := by
  unfold lineCapture at h
  split at h
  · next v0 heq =>
    by_cases hve : v0.isEmpty = true
    · rw [if_pos hve] at h
      exact absurd h (by simp)
    · rw [if_neg hve] at h
      simp only [Option.some.injEq] at h
      subst h
      refine ⟨heq, ?_⟩
      intro he
      rw [he] at hve
      exact hve rfl
  · next heq => exact absurd h (by simp)

theorem getModuleVersion_fallback (m : String) (bl : List String) (probe : Option String)
    (fl : String) (hm : m ∉ bl)
    (hp : probe = none ∨ ∃ req res ty, probe = some req ∧
      importProbeParse req = some (res, ty) ∧
      ty ≠ "INSTALLEDWITHVERSION" ∧ ty ≠ "INSTALLEDNOVERSION") :
    getModuleVersion m bl probe fl = pipFallback m fl := by
  unfold getModuleVersion
  rw [if_neg hm]
  rcases hp with rfl | ⟨req, res, ty, rfl, hip, h1, h2⟩
  · rfl
  · show (match importProbeParse req with
      | none => none
      | some (result, resultType) =>
        if resultType = "INSTALLEDWITHVERSION" then
          some (result, modType.INSTALLEDWITHVERSION.value)
        else if resultType = "INSTALLEDNOVERSION" then
          some ("None", modType.INSTALLEDNOVERSION.value)
        else pipFallback m fl) = pipFallback m fl
    rw [hip]
    show (if ty = "INSTALLEDWITHVERSION" then some (res, modType.INSTALLEDWITHVERSION.value)
      else if ty = "INSTALLEDNOVERSION" then some ("None", modType.INSTALLEDNOVERSION.value)
      else pipFallback m fl) = pipFallback m fl
    rw [if_neg h1, if_neg h2]

/-- Claim C1 amended: when the import probe is inconclusive (non-string result)
or reports anything other than the two installed classifications, the resolver
falls back to the listing probe; then (a) for a module whose canonical name is
free of `[` (so the interpolated pattern reads it literally) and appears in the
normalized listing on a line `<canonical-name>==<version>` with a non-empty
version, the resolver returns the listing-probe installed-with-version
classification (`PIPWITHVERSION`, the spec's `InstalledWithVersion`) carrying
the version of the first such line; and (b) for a module whose canonical name
does not occur as a substring anywhere in the listing, it returns
`NotInstalled`.  (A name that occurs as a substring but heads no such line is
classified `PIPNOVERSION`, not `NotInstalled` — see the counterexample.) -/
theorem claim_C1_amended (m fl : String) (bl : List String) (probe : Option String)
    (hm : m ∉ bl)
    (hp : probe = none ∨ ∃ req res ty, probe = some req ∧
      importProbeParse req = some (res, ty) ∧
      ty ≠ "INSTALLEDWITHVERSION" ∧ ty ≠ "INSTALLEDNOVERSION") :
    (('[' ∉ canonName m.data) →
      ∀ v : List Char, v ≠ [] →
      (canonName m.data ++ '=' :: '=' :: v) ∈ linesOf fl.data →
      ∃ v', getModuleVersion m bl probe fl =
          some (⟨v'⟩, modType.PIPWITHVERSION.value) ∧
        specClassificationOfValue modType.PIPWITHVERSION.value =
          some Classification.InstalledWithVersion ∧
        v' ≠ [] ∧ (canonName m.data ++ '=' :: '=' :: v') ∈ linesOf fl.data) ∧
    (¬ (canonName m.data <:+: fl.data) →
      getModuleVersion m bl probe fl = some ("None", modType.NOTINSTALLED.value)) := by
  have hfb := getModuleVersion_fallback m bl probe fl hm hp
  constructor
  · intro hnb v hv hline
    have hpref : canonName m.data <+: (canonName m.data ++ '=' :: '=' :: v) := ⟨_, rfl⟩
    have hinf : canonName m.data <:+: fl.data :=
      hpref.isInfix.trans (mem_splitCh_within hline)
    have hcomp : compileCM (canonName m.data) =
        some ((canonName m.data).map CMatcher.lit) := compileCM_lits _ hnb
    have hcap : lineCapture ((canonName m.data).map CMatcher.lit)
        (canonName m.data ++ '=' :: '=' :: v) = some v := lineCapture_lits hv
    have hvmem : v ∈ (linesOf fl.data).filterMap
        (lineCapture ((canonName m.data).map CMatcher.lit)) :=
      List.mem_filterMap.mpr ⟨_, hline, hcap⟩
    rcases hfm : (linesOf fl.data).filterMap
        (lineCapture ((canonName m.data).map CMatcher.lit)) with _ | ⟨w0, rest⟩
    · rw [hfm] at hvmem; simp at hvmem
    · have hw0 : w0 ∈ (linesOf fl.data).filterMap
          (lineCapture ((canonName m.data).map CMatcher.lit)) := by
        rw [hfm]; exact List.mem_cons_self _ _
      obtain ⟨line0, hline0, hcap0⟩ := List.mem_filterMap.mp hw0
      obtain ⟨hcm0, hw0ne⟩ := lineCapture_some hcap0
      have hline0eq : line0 = canonName m.data ++ '=' :: '=' :: w0 :=
        cmMatches_lits_eq _ _ _ hcm0
      have hmk : (⟨w0⟩ : String) ≠ "" := by
        intro he
        exact hw0ne (congrArg String.data he)
      refine ⟨w0, ?_, by decide, hw0ne, by rw [← hline0eq]; exact hline0⟩
      rw [hfb]
      simp only [pipFallback]
      rw [if_pos hinf, hcomp]
      show (match (linesOf fl.data).filterMap
          (lineCapture ((canonName m.data).map CMatcher.lit)) with
        | [] => some ("None", modType.PIPNOVERSION.value)
        | v0 :: _ =>
          if (⟨v0⟩ : String) = "" then some ("None", modType.PIPNOVERSION.value)
          else some ((⟨v0⟩ : String), modType.PIPWITHVERSION.value)) =
        some ((⟨w0⟩ : String), modType.PIPWITHVERSION.value)
      rw [hfm]
      show (if (⟨w0⟩ : String) = "" then some ("None", modType.PIPNOVERSION.value)
        else some ((⟨w0⟩ : String), modType.PIPWITHVERSION.value)) =
        some ((⟨w0⟩ : String), modType.PIPWITHVERSION.value)
      rw [if_neg hmk]
  · intro hnin
    rw [hfb]
    simp only [pipFallback]
    rw [if_neg hnin]

/-- Claim C1 witness: `flask` against the listing `flask==3.0.1`, with an
inconclusive import probe. -/
theorem claim_C1_witness :
    ∃ v', getModuleVersion "flask" [] none "flask==3.0.1\n" =
        some (⟨v'⟩, modType.PIPWITHVERSION.value) ∧
      specClassificationOfValue modType.PIPWITHVERSION.value =
        some Classification.InstalledWithVersion ∧
      v' ≠ [] ∧ (canonName ("flask" : String).data ++ '=' :: '=' :: v') ∈
        linesOf ("flask==3.0.1\n" : String).data :=
  (claim_C1_amended "flask" "flask==3.0.1\n" [] none (by simp) (Or.inl rfl)).1
    (by decide) ("3.0.1" : String).data (by decide) (by decide)

/-! ## Claim C8: `uri` reconstruction and re-parse idempotence -/

theorem mk_append_mk (a b : List Char) : (⟨a⟩ : String) ++ ⟨b⟩ = ⟨a ++ b⟩ := rfl

theorem takedrop_append (p : Char → Bool) (xs ys : List Char)
    (hx : ∀ c ∈ xs, p c = true)
    (hy : ∀ d t, ys = d :: t → p d = false) :
    (xs ++ ys).takeWhile p = xs ∧ (xs ++ ys).dropWhile p = ys := by
  induction xs with
  | nil =>
    cases ys with
    | nil => simp
    | cons d t =>
      have hd := hy d t rfl
      simp [List.takeWhile_cons, List.dropWhile_cons, hd]
  | cons a xs' ih =>
    have ha := hx a (List.mem_cons_self _ _)
    have ih' := ih (fun c hc => hx c (List.mem_cons_of_mem _ hc))
    simp [List.takeWhile_cons, List.dropWhile_cons, ha, ih'.1, ih'.2]

/-- The characters the version grammar can consume. -/
def verChar (c : Char) : Bool :=
  isDigitC c ||
    (['.', '!', '-', 'a', 'b', 'r', 'c', 'p', 'o', 's', 't', 'd', 'e', 'v'].contains c)

theorem verChar_of_digit {c : Char} (h : isDigitC c = true) : verChar c = true := by
  simp [verChar, h]

theorem takeWhile_digits_verChar (x : List Char) :
    ∀ c ∈ x.takeWhile isDigitC, verChar c = true :=
  fun _ hc => verChar_of_digit (List.mem_takeWhile_imp hc)

theorem dotSegsF_consumed : ∀ (fuel : Nat) (x : List Char),
    ∃ t, x = t ++ dotSegsF fuel x ∧ ∀ c ∈ t, verChar c = true := by
  intro fuel
  induction fuel with
  | zero =>
    intro x
    exact ⟨[], by cases x <;> rfl, by simp⟩
  | succ fuel' ih =>
    intro x
    rcases x with _ | ⟨a, x'⟩
    · exact ⟨[], rfl, by simp⟩
    rcases x' with _ | ⟨c, r⟩
    · refine ⟨[], ?_, by simp⟩
      show [a] = dotSegsF (fuel' + 1) [a]
      by_cases ha : a = '.'
      · subst ha; rfl
      · simp [dotSegsF, ha]
    by_cases ha : a = '.'
    · subst ha
      by_cases hc : isDigitC c = true
      · have hstep : dotSegsF (fuel' + 1) ('.' :: c :: r) =
            dotSegsF fuel' ((c :: r).dropWhile isDigitC) := by
          simp [dotSegsF, hc]
        obtain ⟨t, ht, hall⟩ := ih ((c :: r).dropWhile isDigitC)
        refine ⟨'.' :: (c :: r).takeWhile isDigitC ++ t, ?_, ?_⟩
        · rw [hstep]
          calc ('.' : Char) :: c :: r
              = '.' :: ((c :: r).takeWhile isDigitC ++ (c :: r).dropWhile isDigitC) := by
                rw [List.takeWhile_append_dropWhile]
            _ = '.' :: ((c :: r).takeWhile isDigitC ++
                  (t ++ dotSegsF fuel' ((c :: r).dropWhile isDigitC))) := by rw [← ht]
            _ = ('.' :: (c :: r).takeWhile isDigitC ++ t) ++
                  dotSegsF fuel' ((c :: r).dropWhile isDigitC) := by
                simp [List.append_assoc]
        · intro d hd
          rcases List.mem_cons.mp hd with rfl | hd'
          · decide
          · rcases List.mem_append.mp hd' with hd'' | hd''
            · exact takeWhile_digits_verChar _ d hd''
            · exact hall d hd''
      · refine ⟨[], ?_, by simp⟩
        show ('.' : Char) :: c :: r = dotSegsF (fuel' + 1) ('.' :: c :: r)
        simp [dotSegsF, hc]
    · refine ⟨[], ?_, by simp⟩
      show (a : Char) :: c :: r = dotSegsF (fuel' + 1) (a :: c :: r)
      simp [dotSegsF, ha]

theorem dotSegs_consumed (x : List Char) :
    ∃ t, x = t ++ dotSegs x ∧ ∀ c ∈ t, verChar c = true :=
  dotSegsF_consumed x.length x

theorem preTag_some {x r : List Char} (h : preTag x = some r) :
    x = 'a' :: r ∨ x = 'b' :: r ∨ x = 'r' :: 'c' :: r := by
  unfold preTag at h
  split at h
  · exact Or.inl (by injection h with h'; rw [h'])
  · exact Or.inr (Or.inl (by injection h with h'; rw [h']))
  · exact Or.inr (Or.inr (by injection h with h'; rw [h']))
  · exact absurd h (by simp)

theorem preCore_consumed {x r2 : List Char} (h : preCore x = some r2) :
    ∃ t, x = t ++ r2 ∧ ∀ c ∈ t, verChar c = true := by
  unfold preCore at h
  cases hpt : preTag x with
  | none => rw [hpt] at h; exact absurd h (by simp)
  | some r =>
    rw [hpt] at h
    replace h : (if (r.takeWhile isDigitC).isEmpty = true then none
      else some (r.dropWhile isDigitC)) = some r2 := h
    by_cases he : (r.takeWhile isDigitC).isEmpty = true
    · rw [if_pos he] at h; exact absurd h (by simp)
    · rw [if_neg he] at h
      injection h with h'
      have hr : r = r.takeWhile isDigitC ++ r2 := by
        rw [← h', List.takeWhile_append_dropWhile]
      have htagchars : ∀ tag : List Char, (∀ c ∈ tag, verChar c = true) →
          x = tag ++ r → ∃ t, x = t ++ r2 ∧ ∀ c ∈ t, verChar c = true := by
        intro tag htag hx
        refine ⟨tag ++ r.takeWhile isDigitC, ?_, ?_⟩
        · rw [hx]
          conv_lhs => rw [hr]
          rw [List.append_assoc]
        · intro c hc
          rcases List.mem_append.mp hc with hc' | hc'
          · exact htag c hc'
          · exact takeWhile_digits_verChar _ c hc'
      rcases preTag_some hpt with hx | hx | hx
      · exact htagchars ['a'] (by decide) hx
      · exact htagchars ['b'] (by decide) hx
      · exact htagchars ['r', 'c'] (by decide) hx

theorem prePart_consumed (x : List Char) :
    ∃ t, x = t ++ prePart x ∧ ∀ c ∈ t, verChar c = true := by
  rcases x with _ | ⟨a, x'⟩
  · exact ⟨[], rfl, by simp⟩
  by_cases ha : a = '-'
  · subst ha
    show ∃ t, '-' :: x' = t ++ (preCore x').getD ('-' :: x') ∧ _
    cases hpc : preCore x' with
    | none => exact ⟨[], by simp, by simp⟩
    | some r2 =>
      obtain ⟨t, ht, hall⟩ := preCore_consumed hpc
      refine ⟨'-' :: t, by simp [ht], ?_⟩
      intro c hc
      rcases List.mem_cons.mp hc with rfl | hc'
      · decide
      · exact hall c hc'
  · have hform : prePart (a :: x') = (preCore (a :: x')).getD (a :: x') := by
      simp [prePart, ha]
    rw [hform]
    cases hpc : preCore (a :: x') with
    | none => exact ⟨[], by simp, by simp⟩
    | some r2 =>
      obtain ⟨t, ht, hall⟩ := preCore_consumed hpc
      exact ⟨t, by simp [← ht], hall⟩

theorem postPart_consumed (x : List Char) :
    ∃ t, x = t ++ postPart x ∧ ∀ c ∈ t, verChar c = true := by
  unfold postPart
  split
  · next r =>
    by_cases hr : (r.takeWhile isDigitC).isEmpty = true
    · rw [if_pos hr]; exact ⟨[], rfl, by simp⟩
    · rw [if_neg hr]
      refine ⟨'.' :: 'p' :: 'o' :: 's' :: 't' :: r.takeWhile isDigitC, ?_, ?_⟩
      · have : r = r.takeWhile isDigitC ++ r.dropWhile isDigitC :=
          (List.takeWhile_append_dropWhile isDigitC r).symm
        conv_lhs => rw [this]
        simp [List.append_assoc]
      · intro c hc
        rcases List.mem_cons.mp hc with rfl | hc; · decide
        rcases List.mem_cons.mp hc with rfl | hc; · decide
        rcases List.mem_cons.mp hc with rfl | hc; · decide
        rcases List.mem_cons.mp hc with rfl | hc; · decide
        rcases List.mem_cons.mp hc with rfl | hc; · decide
        exact takeWhile_digits_verChar _ c hc
  · exact ⟨[], rfl, by simp⟩

theorem devPart_consumed (x : List Char) :
    ∃ t, x = t ++ devPart x ∧ ∀ c ∈ t, verChar c = true := by
  unfold devPart
  split
  · next r =>
    by_cases hr : (r.takeWhile isDigitC).isEmpty = true
    · rw [if_pos hr]; exact ⟨[], rfl, by simp⟩
    · rw [if_neg hr]
      refine ⟨'.' :: 'd' :: 'e' :: 'v' :: r.takeWhile isDigitC, ?_, ?_⟩
      · have : r = r.takeWhile isDigitC ++ r.dropWhile isDigitC :=
          (List.takeWhile_append_dropWhile isDigitC r).symm
        conv_lhs => rw [this]
        simp [List.append_assoc]
      · intro c hc
        rcases List.mem_cons.mp hc with rfl | hc; · decide
        rcases List.mem_cons.mp hc with rfl | hc; · decide
        rcases List.mem_cons.mp hc with rfl | hc; · decide
        rcases List.mem_cons.mp hc with rfl | hc; · decide
        exact takeWhile_digits_verChar _ c hc
  · exact ⟨[], rfl, by simp⟩

theorem chain_consumed {x : List Char}
    (h : (devPart (postPart (prePart (dotSegs x)))).isEmpty = true) :
    ∀ c ∈ x, verChar c = true := by
  obtain ⟨t1, hx1, h1⟩ := dotSegs_consumed x
  obtain ⟨t2, hx2, h2⟩ := prePart_consumed (dotSegs x)
  obtain ⟨t3, hx3, h3⟩ := postPart_consumed (prePart (dotSegs x))
  obtain ⟨t4, hx4, h4⟩ := devPart_consumed (postPart (prePart (dotSegs x)))
  have hnil : devPart (postPart (prePart (dotSegs x))) = [] := List.isEmpty_iff.mp h
  rw [hnil, List.append_nil] at hx4
  rw [hx4] at hx3
  rw [hx3] at hx2
  rw [hx2] at hx1
  intro c hc
  rw [hx1] at hc
  rcases List.mem_append.mp hc with hc' | hc'
  · exact h1 c hc'
  rcases List.mem_append.mp hc' with hc'' | hc''
  · exact h2 c hc''
  rcases List.mem_append.mp hc'' with hc3 | hc3
  · exact h3 c hc3
  · exact h4 c hc3

theorem relMatch_chars {x : List Char} (h : relMatch x = true) :
    ∀ c ∈ x, verChar c = true := by
  unfold relMatch at h
  simp only [Bool.and_eq_true, Bool.not_eq_true'] at h
  obtain ⟨_, htail⟩ := h
  have hx : x = x.takeWhile isDigitC ++ x.dropWhile isDigitC :=
    (List.takeWhile_append_dropWhile isDigitC x).symm
  intro c hc
  rw [hx] at hc
  rcases List.mem_append.mp hc with hc' | hc'
  · exact takeWhile_digits_verChar _ c hc'
  · exact chain_consumed htail c hc'

theorem versionMatch_chars {v : List Char} (h : versionMatch v = true) :
    ∀ c ∈ v, verChar c = true := by
  unfold versionMatch at h
  split at h
  · next r heq =>
    simp only [Bool.and_eq_true, Bool.not_eq_true'] at h
    obtain ⟨_, hrel⟩ := h
    have hv : v = v.takeWhile isDigitC ++ v.dropWhile isDigitC :=
      (List.takeWhile_append_dropWhile isDigitC v).symm
    intro c hc
    rw [hv, heq] at hc
    rcases List.mem_append.mp hc with hc' | hc'
    · exact takeWhile_digits_verChar _ c hc'
    · rcases List.mem_cons.mp hc' with rfl | hc''
      · decide
      · exact relMatch_chars hrel c hc''
  · next heq => exact relMatch_chars h

theorem versionMatch_head {v : List Char} (h : versionMatch v = true) :
    ∃ c t, v = c :: t ∧ isDigitC c = true := by
  have htw : v.takeWhile isDigitC ≠ [] := by
    unfold versionMatch at h
    split at h
    · simp only [Bool.and_eq_true, Bool.not_eq_true'] at h
      intro he; rw [he] at h; exact absurd h.1 (by simp)
    · unfold relMatch at h
      simp only [Bool.and_eq_true, Bool.not_eq_true'] at h
      intro he; rw [he] at h; exact absurd h.1 (by simp)
  cases v with
  | nil => exact absurd rfl htw
  | cons c t =>
    refine ⟨c, t, rfl, ?_⟩
    by_cases hc : isDigitC c = true
    · exact hc
    · rw [List.takeWhile_cons, if_neg hc] at htw
      exact absurd rfl htw

theorem compSplit_some {r c v : List Char} (h : compSplit r = some (c, v)) :
    r = c ++ v ∧ (c = ['=', '='] ∨ c = ['~', '='] ∨ c = ['>', '='] ∨ c = ['<', '='] ∨
      c = ['>'] ∨ c = ['<']) := by
  unfold compSplit at h
  split at h <;>
    first
      | (injection h with h'
         injection h' with h1 h2
         subst h1; subst h2
         simp)
      | exact absurd h (by simp)

theorem digit_ne_eqch {d : Char} (hd : isDigitC d = true) : ¬(d = '=') := by
  intro he
  have := toNat_eq_of_eq he
  simp only [isDigitC, Bool.and_eq_true, decide_eq_true_eq] at hd
  rw [this] at hd
  exact absurd hd (by decide)

theorem compSplit_gtone {d : Char} (t : List Char) (hd : ¬(d = '=')) :
    compSplit ('>' :: d :: t) = some (['>'], d :: t) := by
  simp [compSplit, hd]

theorem compSplit_ltone {d : Char} (t : List Char) (hd : ¬(d = '=')) :
    compSplit ('<' :: d :: t) = some (['<'], d :: t) := by
  simp [compSplit, hd]

theorem nameChar_ne_nl {c : Char} (h : nameChar c = true) : c ≠ '\n' := by
  intro he
  rw [he] at h
  exact absurd h (by decide)

theorem verChar_ne_nl {c : Char} (h : verChar c = true) : c ≠ '\n' := by
  intro he
  rw [he] at h
  exact absurd h (by decide)

theorem stripTrailNl_eq_self {l : List Char} (h : ∀ x, l.getLast? = some x → x ≠ '\n') :
    stripTrailNl l = l := by
  unfold stripTrailNl
  rw [if_neg]
  intro he
  exact h '\n' he rfl

theorem pypiMatch_some {l n c v : List Char} (h : pypiMatch l = some (n, c, v)) :
    n = l.takeWhile nameChar ∧ n ≠ [] ∧
    ((l.dropWhile nameChar = [] ∧ c = [] ∧ v = []) ∨
     (compSplit (l.dropWhile nameChar) = some (c, v) ∧ versionMatch v = true)) := by
  simp only [pypiMatch] at h
  by_cases h1 : (l.takeWhile nameChar).isEmpty = true
  · rw [if_pos h1] at h; exact absurd h (by simp)
  · rw [if_neg h1] at h
    have hne : l.takeWhile nameChar ≠ [] := by
      intro he; rw [he] at h1; exact h1 rfl
    by_cases h2 : (l.dropWhile nameChar).isEmpty = true
    · rw [if_pos h2] at h
      simp only [Option.some.injEq, Prod.mk.injEq] at h
      obtain ⟨hn, hc, hv⟩ := h
      exact ⟨hn.symm, hn ▸ hne, Or.inl ⟨List.isEmpty_iff.mp h2, hc.symm, hv.symm⟩⟩
    · rw [if_neg h2] at h
      cases hcs : compSplit (l.dropWhile nameChar) with
      | none => rw [hcs] at h; exact absurd h (by simp)
      | some cv =>
        obtain ⟨comp, ver⟩ := cv
        rw [hcs] at h
        replace h : (if versionMatch ver = true then some (l.takeWhile nameChar, comp, ver)
          else none) = some (n, c, v) := h
        by_cases hv : versionMatch ver = true
        · rw [if_pos hv] at h
          simp only [Option.some.injEq, Prod.mk.injEq] at h
          obtain ⟨hn, hc, hvv⟩ := h
          subst hn; subst hc; subst hvv
          exact ⟨rfl, hne, Or.inr ⟨rfl, hv⟩⟩
        · rw [if_neg hv] at h
          exact absurd h (by simp)

theorem pypiMatch_all_name {l : List Char} (hne : l ≠ []) (hl : ∀ c ∈ l, nameChar c = true) :
    pypiMatch l = some (l, [], []) := by
  have h1 : l.takeWhile nameChar = l := List.takeWhile_eq_self_iff.mpr hl
  have h2 : l.dropWhile nameChar = [] := List.dropWhile_eq_nil_iff.mpr hl
  have hie : l.isEmpty = false := by
    cases l with
    | nil => exact absurd rfl hne
    | cons a t => rfl
  simp only [pypiMatch, h1, h2, hie, Bool.false_eq_true, if_false, List.isEmpty_nil, if_true]

theorem pypiMatch_reconstructed {nm comp v : List Char}
    (hnm_ne : nm ≠ []) (hnm : ∀ x ∈ nm, nameChar x = true)
    (hcomp : comp = ['=', '='] ∨ comp = ['>', '='] ∨ comp = ['<', '='] ∨
      comp = ['>'] ∨ comp = ['<'])
    (hv : versionMatch v = true) :
    pypiMatch ((nm ++ comp) ++ v) = some (nm, comp, v) := by
  obtain ⟨d, t, rfl, hd⟩ := versionMatch_head hv
  have hassoc : (nm ++ comp) ++ d :: t = nm ++ (comp ++ d :: t) := List.append_assoc _ _ _
  have hhead : ∀ d0 t0, comp ++ d :: t = d0 :: t0 → nameChar d0 = false := by
    intro d0 t0 hdt
    rcases hcomp with rfl | rfl | rfl | rfl | rfl <;>
      (injection hdt with h1 _; rw [← h1]; decide)
  have htd := takedrop_append nameChar nm (comp ++ d :: t) hnm hhead
  have hcs : compSplit (comp ++ d :: t) = some (comp, d :: t) := by
    rcases hcomp with rfl | rfl | rfl | rfl | rfl
    · rfl
    · rfl
    · rfl
    · exact compSplit_gtone t (digit_ne_eqch hd)
    · exact compSplit_ltone t (digit_ne_eqch hd)
  have hie1 : (((nm ++ comp) ++ d :: t).takeWhile nameChar).isEmpty = false := by
    rw [hassoc, htd.1]
    cases nm with
    | nil => exact absurd rfl hnm_ne
    | cons a b => rfl
  have hie2 : (((nm ++ comp) ++ d :: t).dropWhile nameChar).isEmpty = false := by
    rw [hassoc, htd.2]
    rcases hcomp with rfl | rfl | rfl | rfl | rfl <;> rfl
  simp only [pypiMatch, hie1, hie2, Bool.false_eq_true, if_false]
  rw [hassoc, htd.1, htd.2, hcs]
  show (if versionMatch (d :: t) = true then some (nm, comp, d :: t) else none)
      = some (nm, comp, d :: t)
  rw [if_pos hv]

theorem reparse_name (nm : List Char) (hne : nm ≠ []) (hnm : ∀ x ∈ nm, nameChar x = true) :
    Dependency.parse ⟨nm⟩ = some ⟨⟨canonName nm⟩, some "", some "", DepTypes.PYPI⟩ := by
  have hstrip : stripTrailNl nm = nm :=
    stripTrailNl_eq_self (fun x hx => nameChar_ne_nl (hnm x (mem_of_getLastEq hx)))
  have hdata : ((⟨nm⟩ : String)).data = nm := rfl
  have hpm := pypiMatch_all_name hne hnm
  simp only [Dependency.parse, hdata, hstrip, hpm]
  rw [if_neg (by simp : ¬(([] : List Char) = ['~', '=']))]

theorem reparse_pypi (nm comp v : List Char)
    (hnm_ne : nm ≠ []) (hnm : ∀ x ∈ nm, nameChar x = true)
    (hcomp : comp = ['=', '='] ∨ comp = ['>', '='] ∨ comp = ['<', '='] ∨
      comp = ['>'] ∨ comp = ['<'])
    (hv : versionMatch v = true) :
    Dependency.parse ⟨(nm ++ comp) ++ v⟩ =
      some ⟨⟨canonName nm⟩, some ⟨comp⟩, some ⟨v⟩, DepTypes.PYPI⟩ := by
  have hvchars := versionMatch_chars hv
  obtain ⟨d, t, hvdt, hd⟩ := versionMatch_head hv
  have hvne : v ≠ [] := by rw [hvdt]; simp
  have hlast : ∀ x, ((nm ++ comp) ++ v).getLast? = some x → x ≠ '\n' := by
    intro x hx
    rw [List.getLast?_append] at hx
    have hvl : ∃ y, v.getLast? = some y := by
      cases hg : v.getLast? with
      | none => exact absurd (List.getLast?_eq_none_iff.mp hg) hvne
      | some y => exact ⟨y, rfl⟩
    obtain ⟨y, hy⟩ := hvl
    rw [hy] at hx
    replace hx : some y = some x := hx
    injection hx with hx'
    subst hx'
    exact verChar_ne_nl (hvchars y (mem_of_getLastEq hy))
  have hstrip : stripTrailNl ((nm ++ comp) ++ v) = (nm ++ comp) ++ v :=
    stripTrailNl_eq_self hlast
  have hdata : ((⟨(nm ++ comp) ++ v⟩ : String)).data = (nm ++ comp) ++ v := rfl
  have hpm := pypiMatch_reconstructed hnm_ne hnm hcomp hv
  have hcompne : ¬(comp = ['~', '=']) := by
    rcases hcomp with rfl | rfl | rfl | rfl | rfl <;> simp
  simp only [Dependency.parse, hdata, hstrip, hpm]
  rw [if_neg hcompne]

theorem reparse_git (g : List Char) (hg : g.take 4 = ['g', 'i', 't', '+'])
    (hnl : '\n' ∉ g) :
    Dependency.parse ⟨g⟩ = some ⟨⟨g⟩, none, none, DepTypes.GIT⟩ := by
  have hgsplit : g = ['g', 'i', 't', '+'] ++ g.drop 4 := by
    conv_lhs => rw [← List.take_append_drop 4 g]
    rw [hg]
  have hstrip : stripTrailNl g = g :=
    stripTrailNl_eq_self (fun x hx => fun he => hnl (he ▸ mem_of_getLastEq hx))
  have hpm : pypiMatch g = none := by
    have htd := takedrop_append nameChar ['g', 'i', 't'] ('+' :: g.drop 4)
      (by decide) (by intro d0 t0 hdt; injection hdt with h1 _; rw [← h1]; decide)
    have hassoc : (['g', 'i', 't'] ++ ('+' :: g.drop 4) : List Char) =
        ['g', 'i', 't', '+'] ++ g.drop 4 := rfl
    rw [hassoc] at htd
    have hie2 : (g.dropWhile nameChar).isEmpty = false := by
      conv_lhs => rw [hgsplit]
      rw [htd.2]
      rfl
    have hcs : compSplit (g.dropWhile nameChar) = none := by
      conv_lhs => rw [hgsplit]
      rw [htd.2]
      rfl
    have hie1 : (g.takeWhile nameChar).isEmpty = false := by
      conv_lhs => rw [hgsplit]
      rw [htd.1]
      rfl
    simp only [pypiMatch, hie1, hie2, Bool.false_eq_true, if_false, hcs]
  have hgm : gitMatch g = some g := by
    unfold gitMatch
    rw [if_pos ⟨hg, hnl⟩]
  have hdata : ((⟨g⟩ : String)).data = g := rfl
  simp only [Dependency.parse, hdata, hstrip, hpm, hgm]


theorem uri_mk (A B C : List Char) :
    Dependency.uri ⟨⟨A⟩, some ⟨B⟩, some ⟨C⟩, DepTypes.PYPI⟩ = ⟨(A ++ B) ++ C⟩ := by
  show (⟨A⟩ : String) ++ ⟨B⟩ ++ ⟨C⟩ = _
  rw [mk_append_mk, mk_append_mk]

theorem uri_mk_nil (A : List Char) :
    Dependency.uri ⟨⟨A⟩, some ⟨[]⟩, some ⟨[]⟩, DepTypes.PYPI⟩ = ⟨A⟩ := by
  rw [uri_mk]
  show (⟨(A ++ []) ++ []⟩ : String) = ⟨A⟩
  simp

theorem uri_mk_empty (A : List Char) :
    Dependency.uri ⟨⟨A⟩, some "", some "", DepTypes.PYPI⟩ = ⟨A⟩ := by
  show (⟨A⟩ : String) ++ "" ++ "" = ⟨A⟩
  rw [show ("" : String) = ⟨[]⟩ from rfl, mk_append_mk, mk_append_mk]
  simp

/-- Claim C8: re-parsing a parsed dependency's reconstructed `uri` is
idempotent: `parse(parse(s).uri).uri = parse(s).uri` for every specification
string accepted by `parse` (the `uri` differs from `s` only by the `~=`→`>=`
rewrite and name canonicalization, both of which are fixpoints on re-parse). -/
theorem claim_C8 (s : String) (dep : Dependency) (h : Dependency.parse s = some dep) :
    (Dependency.parse dep.uri).map Dependency.uri = some dep.uri := by
  simp only [Dependency.parse] at h
  split at h
  · next n c v heq =>
    simp only [Option.some.injEq] at h
    obtain ⟨hn, hne, hrest⟩ := pypiMatch_some heq
    have hnchars : ∀ x ∈ n, nameChar x = true := by
      rw [hn]; exact fun x hx => List.mem_takeWhile_imp hx
    have hcanon_ne : canonName n ≠ [] := canonName_ne_nil n hne
    have hcanon_chars := nameChar_canonName n hnchars
    rcases hrest with ⟨hdw, rfl, rfl⟩ | ⟨hcs, hv⟩
    · have hif : (if ([] : List Char) = ['~', '='] then ['>', '='] else ([] : List Char))
          = [] := by simp
      rw [hif] at h
      subst h
      rw [uri_mk_nil, reparse_name (canonName n) hcanon_ne hcanon_chars]
      simp only [Option.map_some']
      rw [uri_mk_empty, canonName_idem]
    · rcases (compSplit_some hcs).2 with rfl | rfl | rfl | rfl | rfl | rfl
      · rw [if_neg (by decide : ¬((['=', '='] : List Char) = ['~', '=']))] at h
        subst h
        rw [uri_mk, reparse_pypi (canonName n) ['=', '='] v hcanon_ne hcanon_chars
          (Or.inl rfl) hv]
        simp only [Option.map_some']
        rw [uri_mk, canonName_idem]
      · rw [if_pos rfl] at h
        subst h
        rw [uri_mk, reparse_pypi (canonName n) ['>', '='] v hcanon_ne hcanon_chars
          (Or.inr (Or.inl rfl)) hv]
        simp only [Option.map_some']
        rw [uri_mk, canonName_idem]
      · rw [if_neg (by decide : ¬((['>', '='] : List Char) = ['~', '=']))] at h
        subst h
        rw [uri_mk, reparse_pypi (canonName n) ['>', '='] v hcanon_ne hcanon_chars
          (Or.inr (Or.inl rfl)) hv]
        simp only [Option.map_some']
        rw [uri_mk, canonName_idem]
      · rw [if_neg (by decide : ¬((['<', '='] : List Char) = ['~', '=']))] at h
        subst h
        rw [uri_mk, reparse_pypi (canonName n) ['<', '='] v hcanon_ne hcanon_chars
          (Or.inr (Or.inr (Or.inl rfl))) hv]
        simp only [Option.map_some']
        rw [uri_mk, canonName_idem]
      · rw [if_neg (by decide : ¬((['>'] : List Char) = ['~', '=']))] at h
        subst h
        rw [uri_mk, reparse_pypi (canonName n) ['>'] v hcanon_ne hcanon_chars
          (Or.inr (Or.inr (Or.inr (Or.inl rfl)))) hv]
        simp only [Option.map_some']
        rw [uri_mk, canonName_idem]
      · rw [if_neg (by decide : ¬((['<'] : List Char) = ['~', '=']))] at h
        subst h
        rw [uri_mk, reparse_pypi (canonName n) ['<'] v hcanon_ne hcanon_chars
          (Or.inr (Or.inr (Or.inr (Or.inr rfl)))) hv]
        simp only [Option.map_some']
        rw [uri_mk, canonName_idem]
  · next heq =>
    split at h
    · next g heq2 =>
      simp only [Option.some.injEq] at h
      have hgm : gitMatch (stripTrailNl s.data) = some g := heq2
      unfold gitMatch at hgm
      split at hgm
      · next hcond =>
        injection hgm with hgm'
        subst hgm'
        subst h
        have huri : (Dependency.uri ⟨⟨stripTrailNl s.data⟩, none, none, DepTypes.GIT⟩)
            = ⟨stripTrailNl s.data⟩ := by
          show (⟨stripTrailNl s.data⟩ : String) ++ "" ++ "" = ⟨stripTrailNl s.data⟩
          rw [show ("" : String) = ⟨[]⟩ from rfl, mk_append_mk, mk_append_mk]
          simp
        rw [huri, reparse_git _ hcond.1 hcond.2]
        simp only [Option.map_some']
        rw [huri]
      · exact absurd hgm (by simp)
    · next => exact absurd h (by simp)

/-- Claim C8 witness at `Flask_Login~=0.6.2` (exercising both the `~=`→`>=`
rewrite and name canonicalization). -/
theorem claim_C8_witness :
    (Dependency.parse "Flask_Login~=0.6.2" =
      some ⟨"flask-login", some ">=", some "0.6.2", DepTypes.PYPI⟩) ∧
    (Dependency.parse (Dependency.uri
        ⟨"flask-login", some ">=", some "0.6.2", DepTypes.PYPI⟩)).map Dependency.uri =
      some (Dependency.uri ⟨"flask-login", some ">=", some "0.6.2", DepTypes.PYPI⟩) :=
  ⟨by decide, claim_C8 "Flask_Login~=0.6.2" _ (by decide)⟩
